import Mathlib

/-!
# Verification of the hera_cal redundant-calibration and LST-binning spec

This file formalises, over a shallow embedding, the claims about the
`hera_cal` repository: the redundant-baseline calibration core
(redundancy grouping, equation building, logcal, degeneracy removal)
and the simple LST binner (`lstbin_simple.py`).

The calibration core module `redcal.py` is not present under `src/` (only
its test suite is), so its definitions are modelled from the spec, each
marked `Modelled from the spec:` in its doc comment.  The LST-binning
definitions are translated directly from `src/hera_cal/lstbin_simple.py`.

All arithmetic is carried out exactly over `ℚ`: gains and visibilities
are represented in log space (log-amplitude and phase as rational
numbers), so that the multiplicative calibration equations
`g_i * conj(g_j) * u_k = data` become additive ones and the degeneracy
projections become exact linear algebra.
-/

namespace HeraCal

/-! ## Generic exact least-squares machinery

`Modelled from the spec:` the degeneracy remover performs a
"least-squares fit of phase vs. position" (spec §4.5), and spec §9
demands a rank-robust solve ("robust SVD fallback, since near-degenerate
array geometries are an expected input, not an edge case") — real HERA
arrays are planar, so the design matrices below are rank-deficient on
every realistic input.  Over exact `ℚ` the least-squares fitted values
are precisely the orthogonal projection of the data onto the design's
column space — the quantity the SVD/pinv route computes — and that
projection is total and exact for designs of any rank.  We compute it by
unnormalised Gram–Schmidt orthogonalisation of the design columns: a
column already in the span of its predecessors leaves a zero residual
vector, whose projection coefficient is `0` by the `0 / 0 = 0`
convention of `ℚ`, so rank-deficient (planar, collinear, …) arrays need
no pivoting, no rank decision and no fallback.
-/

variable {ι κ : Type*} [Fintype ι] [Fintype κ] [DecidableEq κ]

/-- Rational inner product of two vectors over a finite index type. -/
def ip (u v : ι → ℚ) : ℚ := ∑ r, u r * v r

/-- Projection coefficient of `y` on `u`, zero when `u = 0` (by the
`0 / 0 = 0` convention of `ℚ`). -/
def projCoeff (y u : ι → ℚ) : ℚ := ip y u / ip u u

/-- Sum of the projections of `y` on each vector of a list; for a
pairwise-orthogonal list this is the orthogonal projection of `y` onto
the list's span. -/
def projList (us : List (ι → ℚ)) (y : ι → ℚ) : ι → ℚ :=
  (us.map fun u => projCoeff y u • u).sum

/-- One Gram–Schmidt step: subtract from `v` its projection onto the
vectors accumulated so far. -/
def orthStep (acc : List (ι → ℚ)) (v : ι → ℚ) : ι → ℚ :=
  v - projList acc v

/-- Gram–Schmidt pass: orthogonalise `vs` against (and append onto) the
already pairwise-orthogonal accumulator `acc`. -/
def gsAcc : List (ι → ℚ) → List (ι → ℚ) → List (ι → ℚ)
  | acc, [] => acc
  | acc, v :: vs => gsAcc (acc ++ [orthStep acc v]) vs

/-- Gram–Schmidt orthogonalisation of a list of vectors (unnormalised;
redundant columns simply become zero vectors). -/
def gsOrtho (cols : List (ι → ℚ)) : List (ι → ℚ) := gsAcc [] cols

/-- The columns of a matrix, as a list of vectors. -/
def colsOf {k : ℕ} (X : Matrix ι (Fin k) ℚ) : List (ι → ℚ) :=
  (List.finRange k).map fun j r => X r j

/-- Exact least-squares fitted values: the orthogonal projection of `y`
onto the column space of the design matrix `X`, computed by Gram–Schmidt.
Total and exact for a design of any rank — the role the SVD fallback
plays in the floating-point implementation (spec §9). -/
def lsProj {k : ℕ} (X : Matrix ι (Fin k) ℚ) (y : ι → ℚ) : ι → ℚ :=
  projList (gsOrtho (colsOf X)) y

/-! ## Redundancy grouper (`get_pos_reds`)

`Modelled from the spec:` `redcal.get_pos_reds` is not under `src/` (only
its tests are).  Spec §4.1: "`get_pos_reds(antenna_positions, tolerance)
-> list[list[antenna_pair]]`.  Groups antenna pairs (i,j), i≠j ... such
that the difference of separation vectors is below tolerance for some
canonical orientation choice (baselines and their negations are folded
into one direction using a fixed tie-break: e.g., prefer the vector with
non-negative first nonzero coordinate)."

Positions are exact rational 3-vectors and the tolerance is supplied as
its square `tol2`, so that the Euclidean comparison `‖u − v‖ < tol` can
be carried out exactly as `sqnorm (u − v) < tol2`.  The spec's sorting of
the returned groups by baseline length is omitted: claim C4 (the
partition property) is invariant under reordering of the groups.
-/

/-- Exact 3-vectors of rational coordinates. -/
abbrev Vec3 := Fin 3 → ℚ

/-- Squared Euclidean norm of a 3-vector. -/
def sqnorm (v : Vec3) : ℚ := ∑ i, v i * v i

/-- Separation vector of the antenna pair `(i, j)`: `antpos[j] − antpos[i]`
(spec §3 sign convention). -/
def blvec {n : ℕ} (pos : Fin n → Vec3) (p : Fin n × Fin n) : Vec3 :=
  fun d => pos p.2 d - pos p.1 d

/-- Whether the first nonzero coordinate of a separation vector is
negative; such baselines are folded onto their negation. -/
def isNegOriented (v : Vec3) : Bool :=
  decide (v 0 < 0 ∨ (v 0 = 0 ∧ (v 1 < 0 ∨ (v 1 = 0 ∧ v 2 < 0))))

/-- Fold a pair onto the canonical orientation: flip it when its
separation vector has a negative first nonzero coordinate. -/
def canonPair {n : ℕ} (pos : Fin n → Vec3) (p : Fin n × Fin n) :
    Fin n × Fin n :=
  if isNegOriented (blvec pos p) then (p.2, p.1) else p

/-- Two separation vectors agree within the (squared) tolerance. -/
def closeVec (tol2 : ℚ) (u v : Vec3) : Bool :=
  decide (sqnorm (fun d => u d - v d) < tol2)

/-- All ordered antenna pairs `(i, j)` with `i < j`: the distinct antenna
pairs of the array (autos excluded, the default). -/
def allPairs (n : ℕ) : List (Fin n × Fin n) :=
  ((List.finRange n) ×ˢ (List.finRange n)).filter fun p => p.1 < p.2

/-- Insert one (canonically oriented) pair into the running group list:
append it to the first group whose representative separation vector is
within tolerance, or start a new group.  Each group carries the
separation vector of its first member as representative (spec §3: "the
first baseline in the list is the canonical representative"). -/
def insertPair {n : ℕ} (tol2 : ℚ) (pos : Fin n → Vec3)
    (p : Fin n × Fin n) :
    List (Vec3 × List (Fin n × Fin n)) → List (Vec3 × List (Fin n × Fin n))
  | [] => [(blvec pos p, [p])]
  | g :: gs =>
      if closeVec tol2 g.1 (blvec pos p) then (g.1, g.2 ++ [p]) :: gs
      else g :: insertPair tol2 pos p gs

/-- `Modelled from the spec:` the positional redundancy grouper
`get_pos_reds` of the missing `redcal.py`, per spec §4.1: partition all
distinct antenna pairs into groups of equal separation vector within
tolerance, after folding each pair onto its canonical orientation. -/
def get_pos_reds {n : ℕ} (pos : Fin n → Vec3) (tol2 : ℚ) :
    List (List (Fin n × Fin n)) :=
  (((allPairs n).map (canonPair pos)).foldl
    (fun gs p => insertPair tol2 pos p gs) []).map Prod.snd

/-! ## Log-linear solver (`logcal`)

`Modelled from the spec:` `RedundantCalibrator.logcal` is not under
`src/`.  Spec §4.3: logcal "takes the complex log of both sides of each
redundancy equation (`log(g_i) + log(conj(g_j)) + log(u_k) = log(data)`),
turning the multiplicative problem into an additive linear least-squares
problem in (log-amplitude, phase) pairs".  We work directly in log
space over `ℚ`: a solution assigns each antenna a log-amplitude and a
phase and each redundant group a log-amplitude and a phase, and the
model for an equation is the sum of logs; taking the conjugate negates
the phase and keeps the log-amplitude.  `logcal` returns a weighted
least-squares solution of this linear system; we characterise its output
as any minimiser of the least-squares objective (test `test_logcal` uses
unit weights).
-/

/-- The redundancy structure of a calibration problem, as consumed by the
log-linear solver: `nB` measured baselines over `nA` antennas, each
assigned to one of `nG` redundant groups. -/
structure RedSystem (nA nB nG : ℕ) where
  a1 : Fin nB → Fin nA
  a2 : Fin nB → Fin nA
  grp : Fin nB → Fin nG

/-- A calibration solution in log space: per-antenna log-amplitudes
`eta` and phases `phi`, per-group unique-baseline log-amplitudes `nu`
and phases `psi`. -/
structure LogSol (nA nG : ℕ) where
  eta : Fin nA → ℚ
  phi : Fin nA → ℚ
  nu : Fin nG → ℚ
  psi : Fin nG → ℚ

/-- Log-amplitude of the model `g_i * conj(g_j) * u_k` for one baseline:
conjugation preserves amplitudes, so the log-amplitudes add. -/
def modelAmp {nA nB nG : ℕ} (S : RedSystem nA nB nG) (s : LogSol nA nG)
    (b : Fin nB) : ℚ :=
  s.eta (S.a1 b) + s.eta (S.a2 b) + s.nu (S.grp b)

/-- Phase of the model `g_i * conj(g_j) * u_k` for one baseline:
conjugation negates the phase of the second gain. -/
def modelPhs {nA nB nG : ℕ} (S : RedSystem nA nB nG) (s : LogSol nA nG)
    (b : Fin nB) : ℚ :=
  s.phi (S.a1 b) - s.phi (S.a2 b) + s.psi (S.grp b)

/-- The least-squares objective of the log-linearised system for data
with log-amplitudes `dAmp` and phases `dPhs` (unit weights). -/
def logcalObj {nA nB nG : ℕ} (S : RedSystem nA nB nG)
    (dAmp dPhs : Fin nB → ℚ) (s : LogSol nA nG) : ℚ :=
  ∑ b, ((dAmp b - modelAmp S s b) ^ 2 + (dPhs b - modelPhs S s b) ^ 2)

/-- `Modelled from the spec:` the output of `logcal` of the missing
`redcal.py` is a least-squares solution of the log-linearised system
(spec §4.3); this predicate characterises exactly those outputs. -/
def IsLogcalSolution {nA nB nG : ℕ} (S : RedSystem nA nB nG)
    (dAmp dPhs : Fin nB → ℚ) (s : LogSol nA nG) : Prop :=
  ∀ t : LogSol nA nG, logcalObj S dAmp dPhs s ≤ logcalObj S dAmp dPhs t

/-- Concrete one-baseline redundancy system over two antennas, for the
C2 witness. -/
def c2System : RedSystem 2 1 1 :=
  ⟨fun _ => 0, fun _ => 1, fun _ => 0⟩

/-- Concrete true log-space solution, for the C2 witness. -/
def c2Truth : LogSol 2 1 :=
  ⟨fun _ => 0, fun _ => 0, fun _ => 0, fun _ => 0⟩

/-- A different exact solution of the same system (the true solution
shifted along the amplitude and phase degeneracies), for the C2
witness. -/
def c2Sol : LogSol 2 1 :=
  ⟨fun i => if i = 0 then 1 else -1, fun _ => 1, fun _ => 0, fun _ => 0⟩

/-! ## Equation builder (`RedundantCalibrator.build_eqs`)

`Modelled from the spec:` `redcal.RedundantCalibrator.build_eqs` is not
under `src/`.  Spec §4.2: for each baseline `(i, j, pol)` in group `k`
with polarization split into `feed_i, feed_j`, emit the equation
`g_{i,feed_i} * conj(g_{j,feed_j}) * u_k = data_{i,j,pol}`; for
`4pol_minV` the cross-feed equations from both orderings map onto the
same `u_k`.  Spec §9 asks for the string-built equation keys
(`g_0_Jxx * g_1_Jyy_ * u_4_xy`) to be read as structured equation IDs;
we model the key as a record of exactly the fields the string encodes:
the two (antenna, feed) gain unknowns and the (group index, group
polarization) unique-baseline unknown.
-/

/-- A polarization feed (`Jxx`-type or `Jyy`-type tag). -/
inductive Feed
  | jx
  | jy
deriving DecidableEq, Repr

/-- A visibility polarization: the ordered pair of feeds. -/
abbrev Pol := Feed × Feed

/-- A baseline key `(ant_i, ant_j, polarization)`. -/
abbrev Bl := ℕ × ℕ × Pol

/-- A structured equation key: the fields encoded by the string key
`g_{a1}_{f1} * g_{a2}_{f2}_ * u_{ublIdx}_{ublPol}`. -/
structure EqKey where
  a1 : ℕ
  f1 : Feed
  a2 : ℕ
  f2 : Feed
  ublIdx : ℕ
  ublPol : Pol
deriving DecidableEq, Repr

/-- The unique-baseline unknown a key refers to. -/
def EqKey.ubl (e : EqKey) : ℕ × Pol := (e.ublIdx, e.ublPol)

/-- Polarization labelling the group's unique-baseline unknown: that of
the group's first baseline (the canonical representative, spec §3). -/
def headPol (g : List Bl) : Pol :=
  match g with
  | [] => (Feed.jx, Feed.jx)
  | b :: _ => b.2.2

/-- The equation key emitted for baseline `b` of the group with index `k`
and unique-baseline polarization `up`. -/
def eqKey (k : ℕ) (up : Pol) (b : Bl) : EqKey :=
  ⟨b.1, b.2.2.1, b.2.1, b.2.2.2, k, up⟩

/-- `Modelled from the spec:` the equation builder `build_eqs` of the
missing `redcal.py` (spec §4.2): one equation per baseline per group,
keyed by gains and the group's unique-baseline unknown, paired with the
baseline it correlates to. -/
def build_eqs (reds : List (List Bl)) : List (EqKey × Bl) :=
  reds.enum.flatMap fun kg => kg.2.map fun b => (eqKey kg.1 (headPol kg.2) b, b)

/-- The concrete `4pol_minV` redundant groups of a three-antenna linear
array (as in `test_build_eq`): cross-feed orderings share their group. -/
def c6Reds : List (List Bl) :=
  [ [(0, 1, (Feed.jx, Feed.jx)), (1, 2, (Feed.jx, Feed.jx))],
    [(0, 2, (Feed.jx, Feed.jx))],
    [(0, 1, (Feed.jy, Feed.jy)), (1, 2, (Feed.jy, Feed.jy))],
    [(0, 2, (Feed.jy, Feed.jy))],
    [(0, 1, (Feed.jx, Feed.jy)), (1, 2, (Feed.jx, Feed.jy)),
      (0, 1, (Feed.jy, Feed.jx)), (1, 2, (Feed.jy, Feed.jx))],
    [(0, 2, (Feed.jx, Feed.jy)), (0, 2, (Feed.jy, Feed.jx))] ]

/-! ## Degeneracy remover (`remove_degen`)

`Modelled from the spec:` `RedundantCalibrator.remove_degen` is not under
`src/`.  Spec §4.5: redundant calibration cannot determine (a) one
overall complex gain factor per polarization (amplitude + phase) and
(b) a spatial phase gradient (tip-tilt) across the array per
polarization; for `4pol`/`4pol_minV` the cross-feed equations force a
common phase gradient, with the relative offset between the feeds as the
extra degenerate dimension (one that is itself removed in `4pol_minV`,
where both cross-feed orderings share one unique-baseline unknown).
The remover extracts these degenerate directions from the solution by a
mean of the log-amplitudes and a least-squares fit of phase vs. antenna
position, and replaces them by those of a caller-supplied reference
solution `degen_sol` (zeros, i.e. unit gains, for the default), keeping
every baseline equation satisfied.  It "raises on incompatible
`pol_mode` (not one of the four recognized modes)".

Everything is in exact log space over `ℚ`: a gain `g` is represented by
`(log |g|, arg g)` and a visibility likewise, so the degenerate
transformations are exact affine maps of the antenna positions.
-/

/-- The polarization mode of a `RedundantCalibrator` (spec §4.1); the
test suite drives `remove_degen` with an `unrecognized_pol_mode` string
to probe the configuration error. -/
inductive PolMode
  | onePol
  | twoPol
  | fourPol
  | fourPolMinV
  | unrecognized
deriving DecidableEq, Repr

/-- The configuration error raised by `remove_degen` (spec §7: bad
`pol_mode` is "raised immediately, synchronously, before any numeric
work — never silently defaulted"). -/
inductive DegenError
  | unrecognizedPolMode
deriving DecidableEq, Repr

/-- Rational dot product of two 3-vectors. -/
def dot3 (u v : Vec3) : ℚ := ∑ d, u d * v d

/-- Geometry of a redundantly calibrated solution: antenna positions,
the antenna pair `(gi k, gj k)` of each group's canonical representative
baseline (the group's first baseline, spec §3) and the group's
polarization. -/
structure RedGeometry (nA nG : ℕ) where
  pos : Fin nA → Vec3
  gi : Fin nG → Fin nA
  gj : Fin nG → Fin nA
  gpol : Fin nG → Pol

/-- The separation vector of a group's representative baseline, computed
from the antenna positions (`antpos[bl[0]] - antpos[bl[1]]`). -/
def blvOf {nA nG : ℕ} (G : RedGeometry nA nG) (k : Fin nG) : Vec3 :=
  fun d => G.pos (G.gi k) d - G.pos (G.gj k) d

/-- A full dual-polarization solution in log space: per-(feed, antenna)
gain log-amplitudes and phases, per-group unique-baseline visibility
log-amplitudes and phases. -/
structure DegenSol (nA nG : ℕ) where
  gAmp : Feed → Fin nA → ℚ
  gPhs : Feed → Fin nA → ℚ
  vAmp : Fin nG → ℚ
  vPhs : Fin nG → ℚ

/-- The degenerate directions of redundant calibration (spec §4.5): a
per-feed overall log-amplitude, a per-feed overall phase and a per-feed
phase gradient across the array. -/
structure DegenParams where
  amp : Feed → ℚ
  phsC : Feed → ℚ
  phsG : Feed → Vec3

/-- Which degenerate transformations actually leave all redundancy
equations of a given pol mode satisfied: `1pol` only involves the first
feed; `2pol` has fully independent feeds; in `4pol` the cross-feed
groups force one common phase gradient; in `4pol_minV` the shared
cross-feed unique-baseline unknown additionally forces a common overall
phase. -/
def DegenParams.allowed : PolMode → DegenParams → Prop
  | PolMode.onePol, p =>
      p.amp Feed.jy = 0 ∧ p.phsC Feed.jy = 0 ∧ p.phsG Feed.jy = fun _ => 0
  | PolMode.twoPol, _ => True
  | PolMode.fourPol, p => p.phsG Feed.jx = p.phsG Feed.jy
  | PolMode.fourPolMinV, p =>
      p.phsG Feed.jx = p.phsG Feed.jy ∧ p.phsC Feed.jx = p.phsC Feed.jy
  | PolMode.unrecognized, _ => False

/-- Which group polarizations may occur in a given pol mode. -/
def polOk : PolMode → Pol → Prop
  | PolMode.onePol, pq => pq = (Feed.jx, Feed.jx)
  | PolMode.twoPol, pq => pq.1 = pq.2
  | _, _ => True

/-- Apply a degenerate transformation to a solution: multiply each gain
by the per-feed overall factor and phase plane, and compensate each
unique-baseline visibility so that every product
`g_i * conj(g_j) * u_k` is unchanged (see
`applyDegen_preserves_model`). -/
def applyDegen {nA nG : ℕ} (G : RedGeometry nA nG) (p : DegenParams)
    (s : DegenSol nA nG) : DegenSol nA nG where
  gAmp f i := s.gAmp f i + p.amp f
  gPhs f i := s.gPhs f i + p.phsC f + dot3 (p.phsG f) (G.pos i)
  vAmp k := s.vAmp k - p.amp (G.gpol k).1 - p.amp (G.gpol k).2
  vPhs k := s.vPhs k - (p.phsC (G.gpol k).1 - p.phsC (G.gpol k).2)
    - dot3 (p.phsG (G.gpol k).1) (blvOf G k)

/-- Log-amplitude of the model `g_i * conj(g_j) * u_k` of a baseline
`(i, j)` of group `k` whose polarization is `G.gpol k`. -/
def blModelAmp {nA nG : ℕ} (G : RedGeometry nA nG) (s : DegenSol nA nG)
    (i j : Fin nA) (k : Fin nG) : ℚ :=
  s.gAmp (G.gpol k).1 i + s.gAmp (G.gpol k).2 j + s.vAmp k

/-- Phase of the model `g_i * conj(g_j) * u_k` of a baseline `(i, j)` of
group `k` (conjugation negates the second gain phase). -/
def blModelPhs {nA nG : ℕ} (G : RedGeometry nA nG) (s : DegenSol nA nG)
    (i j : Fin nA) (k : Fin nG) : ℚ :=
  s.gPhs (G.gpol k).1 i - s.gPhs (G.gpol k).2 j + s.vPhs k

/-- Mean gain log-amplitude of a feed (the degenerate amplitude
direction; spec §4.5 "amplitude product of any two same-pol antennas
gains averages to 1" is mean log-amplitude zero). -/
def meanAmp {nA nG : ℕ} (s : DegenSol nA nG) (f : Feed) : ℚ :=
  (∑ i, s.gAmp f i) / (nA : ℚ)

/-- The affine design matrix of the phase-vs-position fit: a constant
column and the three position coordinates. -/
def affDesign {nA : ℕ} (pos : Fin nA → Vec3) : Matrix (Fin nA) (Fin 4) ℚ :=
  Matrix.of fun i => Fin.cons 1 (pos i)

/-- The stacked design matrix of the joint two-feed fit of `4pol`
(spec §4.5): separate constant columns per feed, one common gradient. -/
def fourPolDesign {nA : ℕ} (pos : Fin nA → Vec3) :
    Matrix (Fin nA ⊕ Fin nA) (Fin 5) ℚ :=
  Matrix.of (Sum.elim
    (fun a => Fin.cons 1 (Fin.cons 0 (pos a)))
    (fun a => Fin.cons 0 (Fin.cons 1 (pos a))))

/-- The stacked design matrix of the joint two-feed fit of `4pol_minV`
(spec §4.5): one common constant and one common gradient. -/
def minVDesign {nA : ℕ} (pos : Fin nA → Vec3) :
    Matrix (Fin nA ⊕ Fin nA) (Fin 4) ℚ :=
  Matrix.of (Sum.elim
    (fun a => Fin.cons 1 (pos a))
    (fun a => Fin.cons 1 (pos a)))

/-- Both feeds' gain phases stacked into one data vector. -/
def stackPhs {nA : ℕ} (phs : Feed → Fin nA → ℚ) : Fin nA ⊕ Fin nA → ℚ :=
  Sum.elim (phs Feed.jx) (phs Feed.jy)

/-- The row of the stacked design matrices carrying antenna `i` of feed
`f`. -/
def feedRow {nA : ℕ} (f : Feed) (i : Fin nA) : Fin nA ⊕ Fin nA :=
  match f with
  | Feed.jx => Sum.inl i
  | Feed.jy => Sum.inr i

/-- The per-feed independent least-squares phase-vs-position fit used by
`1pol` and `2pol`: each feed's fitted phase plane is the orthogonal
projection of that feed's gain phases onto the affine design's column
space. -/
def perFeedFit {nA : ℕ} (pos : Fin nA → Vec3) (phs : Feed → Fin nA → ℚ) :
    Feed → Fin nA → ℚ :=
  fun f => lsProj (affDesign pos) (phs f)

/-- The joint two-feed least-squares fit of `4pol`: per-feed constants,
common gradient, both feeds' phases fitted at once on the stacked
design. -/
def fourPolFit {nA : ℕ} (pos : Fin nA → Vec3) (phs : Feed → Fin nA → ℚ) :
    Feed → Fin nA → ℚ :=
  fun f i => lsProj (fourPolDesign pos) (stackPhs phs) (feedRow f i)

/-- The joint two-feed least-squares fit of `4pol_minV`: common constant,
common gradient. -/
def minVFit {nA : ℕ} (pos : Fin nA → Vec3) (phs : Feed → Fin nA → ℚ) :
    Feed → Fin nA → ℚ :=
  fun f i => lsProj (minVDesign pos) (stackPhs phs) (feedRow f i)

/-- The fitted degenerate phase plane of each pol mode, per (feed,
antenna). -/
def phaseFit {nA : ℕ} (mode : PolMode) (pos : Fin nA → Vec3)
    (phs : Feed → Fin nA → ℚ) : Feed → Fin nA → ℚ :=
  match mode with
  | PolMode.fourPol => fourPolFit pos phs
  | PolMode.fourPolMinV => minVFit pos phs
  | _ => perFeedFit pos phs

/-- The numeric part of `remove_degen`: replace the solution's
degenerate components (per-feed mean log-amplitude; the mode's fitted
phase plane) by those of the reference solution `degen`, compensating
the unique-baseline visibilities so every baseline equation keeps its
value.  The phase compensation of group `k` is exactly the net phase
just removed from the gains of its representative baseline's antenna
pair — fitted plane of `s` minus fitted plane of `degen`, evaluated at
`gi k` for the first feed and `gj k` for the second — which is the
spec's coefficient contraction written pointwise: for an affine fitted
plane the difference of its values at the two representative antennas
is `constant₁ − constant₂ + gradient · (antpos[gi k] − antpos[gj k])`. -/
def removeDegenOk {nA nG : ℕ} (mode : PolMode) (G : RedGeometry nA nG)
    (s degen : DegenSol nA nG) : DegenSol nA nG :=
  let fs := phaseFit mode G.pos s.gPhs
  let fd := phaseFit mode G.pos degen.gPhs
  { gAmp := fun f i => s.gAmp f i - meanAmp s f + meanAmp degen f
    gPhs := fun f i => s.gPhs f i - fs f i + fd f i
    vAmp := fun k => s.vAmp k
      + (meanAmp s (G.gpol k).1 - meanAmp degen (G.gpol k).1)
      + (meanAmp s (G.gpol k).2 - meanAmp degen (G.gpol k).2)
    vPhs := fun k => s.vPhs k
      + ((fs (G.gpol k).1 (G.gi k) - fd (G.gpol k).1 (G.gi k))
          - (fs (G.gpol k).2 (G.gj k) - fd (G.gpol k).2 (G.gj k))) }

/-- `Modelled from the spec:` `remove_degen` of the missing `redcal.py`
(spec §4.5 and §7): check the pol mode first and raise a configuration
error on an unrecognized mode, before any numeric work; otherwise
project the degenerate components onto those of `degen`. -/
def removeDegen {nA nG : ℕ} (mode : PolMode) (G : RedGeometry nA nG)
    (s degen : DegenSol nA nG) : Except DegenError (DegenSol nA nG) :=
  if mode = PolMode.unrecognized then Except.error DegenError.unrecognizedPolMode
  else Except.ok (removeDegenOk mode G s degen)

/-- Coefficient vector `(constant, gradient)` of the affine fit. -/
def affCoeff (c0 : ℚ) (b : Vec3) : Fin 4 → ℚ := Fin.cons c0 b

/-- Coefficient vector `(constant_x, constant_y, gradient)` of the
`4pol` stacked fit. -/
def fourPolCoeff (cx cy : ℚ) (b : Vec3) : Fin 5 → ℚ :=
  Fin.cons cx (Fin.cons cy b)

/-- The per-(feed, antenna) phases after one pass of degeneracy removal:
original phases minus own fitted plane plus the reference's fitted
plane. -/
def passPhs {nA : ℕ} (mode : PolMode) (pos : Fin nA → Vec3)
    (sPhs dPhs : Feed → Fin nA → ℚ) : Feed → Fin nA → ℚ :=
  fun f i => sPhs f i - phaseFit mode pos sPhs f i
    + phaseFit mode pos dPhs f i

/-- Concrete antenna positions for the C1 witness: the spec §8 planar
array — three collinear antennas at 0, 14.7 and 29.4 metres along the
east axis, all at `z = 0` (as `build_linear_array` places them).  The
affine design matrix of this array is rank-deficient; the exact
projection needs no extra hypothesis for it. -/
def wPos : Fin 3 → Vec3 := fun i d => if d = 0 then (i : ℚ) * (147 / 10) else 0

/-- Concrete geometry for the C1 witness: the two `xx` redundant groups
of the three-antenna linear array (separations 14.7 m and 29.4 m), each
with its representative baseline's antenna pair. -/
def wGeom : RedGeometry 3 2 where
  pos := wPos
  gi := fun k => if k = 0 then 1 else 2
  gj := fun _ => 0
  gpol := fun _ => (Feed.jx, Feed.jx)

/-- Concrete true solution for the C1 witness. -/
def wTruth : DegenSol 3 2 :=
  ⟨fun _ _ => 0, fun _ _ => 0, fun _ => 0, fun _ => 0⟩

/-- Concrete nonzero degenerate transformation for the C1 witness
(overall amplitude, overall phase and an east-west phase gradient on the
first feed; the second feed untouched, as `1pol` requires). -/
def wParams : DegenParams where
  amp f := match f with | Feed.jx => 1 | Feed.jy => 0
  phsC f := match f with | Feed.jx => 1 / 2 | Feed.jy => 0
  phsG f :=
    match f with
    | Feed.jx => fun d => if d = 0 then 1 / 10 else 0
    | Feed.jy => fun _ => 0

/-! ## LST averaging (`lstbin_simple.lst_average`)

Translated from `src/hera_cal/lstbin_simple.py` lines 300–387.  The
input arrays have shape `(ntimes, nbl, nfreq, npol)`; all operations are
either pointwise or reductions over the first (nights) axis, so the
three trailing axes are collapsed into a single position index.

A complex float entry is modelled as `Option (ℚ × ℚ)`: `none` stands for
a non-finite entry (NaN or ±Inf).  This is faithful for `lst_average`
because the function unconditionally flags every non-finite entry
(`flags[np.isnan(data) | np.isinf(data) | (nsamples == 0)] = True`,
line 352) and then NaN-masks every flagged entry
(`data[flags] *= np.nan`, lines 359/366), so NaN and Inf are never
treated differently afterwards.  `nsamples` entries are modelled as
finite rationals.  `np.nanstd` is modelled by the nan-aware variance:
`ℚ` has no square root, and the claim only uses that the result is
non-NaN exactly when some night is unflagged and that fully flagged
positions are overwritten with the sentinel `1.0` (line 384), neither of
which the square root affects.  The optional sigma-clipping mask
(`sigma_clip` lives in `lstbin.py`, outside `src/`) is an arbitrary
extra flag mask `sclip`, applied exactly when `sigma_clip_thresh > 0`
(line 363); the theorem quantifies over every possible mask.
-/

/-- A complex float value: `none` models a non-finite entry. -/
abbrev Cx := Option (ℚ × ℚ)

/-- Flags after the non-finite / zero-sample pass (source line 352). -/
def procFlags1 {t np : ℕ} (data : Fin t → Fin np → Cx)
    (nsamples : Fin t → Fin np → ℚ) (flags : Fin t → Fin np → Bool) :
    Fin t → Fin np → Bool :=
  fun n p => flags n p || (data n p).isNone || decide (nsamples n p = 0)

/-- The fraction of flagged nights at one position (source line 355). -/
def flagFrac {t np : ℕ} (flags1 : Fin t → Fin np → Bool) (p : Fin np) : ℚ :=
  (∑ n, if flags1 n p then (1 : ℚ) else 0) / (t : ℚ)

/-- The final flags of `lst_average`: input flags, non-finite and
zero-sample entries, whole positions whose flag fraction exceeds
`flag_thresh` (line 358), and — when sigma clipping is enabled — the
clip mask (line 365). -/
def procFlags {t np : ℕ} (data : Fin t → Fin np → Cx)
    (nsamples : Fin t → Fin np → ℚ) (flags : Fin t → Fin np → Bool)
    (flag_thresh sigma_clip_thresh : ℚ) (sclip : Fin t → Fin np → Bool) :
    Fin t → Fin np → Bool :=
  fun n p =>
    if sigma_clip_thresh > 0 then
      (procFlags1 data nsamples flags n p
        || decide (flagFrac (procFlags1 data nsamples flags) p > flag_thresh))
        || sclip n p
    else
      procFlags1 data nsamples flags n p
        || decide (flagFrac (procFlags1 data nsamples flags) p > flag_thresh)

/-- The nights whose entry is finite (not NaN-masked). -/
def presSet {t : ℕ} (g : Fin t → Cx) : Finset (Fin t) :=
  Finset.univ.filter fun n => (g n).isSome

/-- Real part of a complex value, `0` for a non-finite entry. -/
def getRe (c : Cx) : ℚ := (c.getD ((0 : ℚ), (0 : ℚ))).1

/-- Imaginary part of a complex value, `0` for a non-finite entry. -/
def getIm (c : Cx) : ℚ := (c.getD ((0 : ℚ), (0 : ℚ))).2

/-- Nan-aware mean of the real parts. -/
def nanMeanRe {t : ℕ} (g : Fin t → Cx) : ℚ :=
  (∑ n ∈ presSet g, getRe (g n)) / ((presSet g).card : ℚ)

/-- Nan-aware mean of the imaginary parts. -/
def nanMeanIm {t : ℕ} (g : Fin t → Cx) : ℚ :=
  (∑ n ∈ presSet g, getIm (g n)) / ((presSet g).card : ℚ)

/-- `np.nanstd(data.real) + 1j*np.nanstd(data.imag)` (source line 373),
modelled by the nan-aware variance of each component; `none` (NaN)
exactly when every night is masked. -/
def nanstdC {t : ℕ} (g : Fin t → Cx) : Cx :=
  if presSet g = ∅ then none
  else some
    ((∑ n ∈ presSet g, (getRe (g n) - nanMeanRe g) ^ 2)
        / ((presSet g).card : ℚ),
      (∑ n ∈ presSet g, (getIm (g n) - nanMeanIm g) ^ 2)
        / ((presSet g).card : ℚ))

/-- `np.nansum(data * nsamples, axis=0)`, real part: NaN-masked entries
contribute nothing (source line 379). -/
def nansumRe {t : ℕ} (g : Fin t → Cx) (w : Fin t → ℚ) : ℚ :=
  ∑ n, match g n with
    | none => 0
    | some z => z.1 * w n

/-- `np.nansum(data * nsamples, axis=0)`, imaginary part. -/
def nansumIm {t : ℕ} (g : Fin t → Cx) (w : Fin t → ℚ) : ℚ :=
  ∑ n, match g n with
    | none => 0
    | some z => z.2 * w n

/-- `data[flags] *= np.nan` (source lines 359/366): flagged entries are
NaN-masked. -/
def lstMaskedData {t np : ℕ} (data : Fin t → Fin np → Cx)
    (nsamples : Fin t → Fin np → ℚ) (flags : Fin t → Fin np → Bool)
    (flag_thresh sigma_clip_thresh : ℚ) (sclip : Fin t → Fin np → Bool)
    (n : Fin t) (p : Fin np) : Cx :=
  if procFlags data nsamples flags flag_thresh sigma_clip_thresh sclip n p
  then none else data n p

/-- `nsamples[flags] = 0` (source line 375). -/
def lstSamples2 {t np : ℕ} (data : Fin t → Fin np → Cx)
    (nsamples : Fin t → Fin np → ℚ) (flags : Fin t → Fin np → Bool)
    (flag_thresh sigma_clip_thresh : ℚ) (sclip : Fin t → Fin np → Bool)
    (n : Fin t) (p : Fin np) : ℚ :=
  if procFlags data nsamples flags flag_thresh sigma_clip_thresh sclip n p
  then 0 else nsamples n p

/-- `norm = np.sum(nsamples, axis=0)` after zeroing flagged samples
(source line 376). -/
def lstNorm {t np : ℕ} (data : Fin t → Fin np → Cx)
    (nsamples : Fin t → Fin np → ℚ) (flags : Fin t → Fin np → Bool)
    (flag_thresh sigma_clip_thresh : ℚ) (sclip : Fin t → Fin np → Bool)
    (p : Fin np) : ℚ :=
  ∑ n, lstSamples2 data nsamples flags flag_thresh sigma_clip_thresh sclip n p

/-- The returned averaged data (source lines 379–381): the
sample-weighted nan-sum, divided by the summed sample count only where
that sum is positive, and the sentinel `1` elsewhere. -/
def lstData {t np : ℕ} (data : Fin t → Fin np → Cx)
    (nsamples : Fin t → Fin np → ℚ) (flags : Fin t → Fin np → Bool)
    (flag_thresh sigma_clip_thresh : ℚ) (sclip : Fin t → Fin np → Bool)
    (p : Fin np) : Cx :=
  if lstNorm data nsamples flags flag_thresh sigma_clip_thresh sclip p > 0
  then some
    (nansumRe
        (fun n => lstMaskedData data nsamples flags flag_thresh
          sigma_clip_thresh sclip n p)
        (fun n => lstSamples2 data nsamples flags flag_thresh
          sigma_clip_thresh sclip n p)
      / lstNorm data nsamples flags flag_thresh sigma_clip_thresh sclip p,
      nansumIm
        (fun n => lstMaskedData data nsamples flags flag_thresh
          sigma_clip_thresh sclip n p)
        (fun n => lstSamples2 data nsamples flags flag_thresh
          sigma_clip_thresh sclip n p)
      / lstNorm data nsamples flags flag_thresh sigma_clip_thresh sclip p)
  else some ((1 : ℚ), (0 : ℚ))

/-- `f_min = np.all(flags, axis=0)` (source line 383). -/
def lstFmin {t np : ℕ} (data : Fin t → Fin np → Cx)
    (nsamples : Fin t → Fin np → ℚ) (flags : Fin t → Fin np → Bool)
    (flag_thresh sigma_clip_thresh : ℚ) (sclip : Fin t → Fin np → Bool)
    (p : Fin np) : Bool :=
  decide (∀ n,
    procFlags data nsamples flags flag_thresh sigma_clip_thresh sclip n p
      = true)

/-- The returned standard deviation (source lines 373/384): the
nan-std, overwritten by the sentinel `1` at fully flagged positions. -/
def lstStd {t np : ℕ} (data : Fin t → Fin np → Cx)
    (nsamples : Fin t → Fin np → ℚ) (flags : Fin t → Fin np → Bool)
    (flag_thresh sigma_clip_thresh : ℚ) (sclip : Fin t → Fin np → Bool)
    (p : Fin np) : Cx :=
  if lstFmin data nsamples flags flag_thresh sigma_clip_thresh sclip p
  then some ((1 : ℚ), (0 : ℚ))
  else nanstdC (fun n =>
    lstMaskedData data nsamples flags flag_thresh sigma_clip_thresh sclip n p)

/-- The returned sample count (source line 385): the summed samples,
zeroed at fully flagged positions. -/
def lstNs {t np : ℕ} (data : Fin t → Fin np → Cx)
    (nsamples : Fin t → Fin np → ℚ) (flags : Fin t → Fin np → Bool)
    (flag_thresh sigma_clip_thresh : ℚ) (sclip : Fin t → Fin np → Bool)
    (p : Fin np) : ℚ :=
  if lstFmin data nsamples flags flag_thresh sigma_clip_thresh sclip p
  then 0
  else lstNorm data nsamples flags flag_thresh sigma_clip_thresh sclip p

/-- `lst_average` of `src/hera_cal/lstbin_simple.py` (lines 300–387):
returns `(data, f_min, std, norm)`. -/
def lst_average {t np : ℕ} (data : Fin t → Fin np → Cx)
    (nsamples : Fin t → Fin np → ℚ) (flags : Fin t → Fin np → Bool)
    (flag_thresh sigma_clip_thresh : ℚ) (sclip : Fin t → Fin np → Bool) :
    (Fin np → Cx) × (Fin np → Bool) × (Fin np → Cx) × (Fin np → ℚ) :=
  (lstData data nsamples flags flag_thresh sigma_clip_thresh sclip,
    lstFmin data nsamples flags flag_thresh sigma_clip_thresh sclip,
    lstStd data nsamples flags flag_thresh sigma_clip_thresh sclip,
    lstNs data nsamples flags flag_thresh sigma_clip_thresh sclip)

/-- Concrete inputs for the C9 witness: one night, one position, fully
flagged. -/
def wData9 : Fin 1 → Fin 1 → Cx := fun _ _ => some ((2 : ℚ), (3 : ℚ))

/-- Sample counts for the C9 witness. -/
def wNs9 : Fin 1 → Fin 1 → ℚ := fun _ _ => 1

/-- Input flags for the C9 witness: everything flagged. -/
def wFl9 : Fin 1 → Fin 1 → Bool := fun _ _ => true

/-- Sigma-clip mask for the C9 witness. -/
def wSc9 : Fin 1 → Fin 1 → Bool := fun _ _ => false

/-! ## Simple LST binning (`lstbin_simple.simple_lst_bin`)

Translated from `src/hera_cal/lstbin_simple.py` lines 36–176 (with
`adjust_lst_bin_edges`, lines 389–398, and `get_lst_bins`,
lines 178–205).  LSTs are measured in turns (one turn = 2π radians), so
the source's shifts by multiples of `2*np.pi` and reductions modulo
`2*np.pi` become exact integer shifts and reductions modulo 1 over `ℚ` —
every comparison the validation performs is invariant under this fixed
rescaling.  A four-dimensional numpy array is a shape tuple plus an
index function.  The rephasing kernel `utils.lst_rephase_vectorized`
lives in `utils.py`, outside `src/`, so it is taken as an explicit
function parameter `rephaseFn` (the theorems quantify over it);
`freq_array` is modelled as always supplied since the validation
dereferences its length before the rephase branch.  The source splits
the filtered arrays into per-bin subarrays; the model returns the
filtered arrays together with the per-bin lists of kept time indices,
which determine that split. -/

/-- A 4-dimensional array: a shape and an index function. -/
structure NdArr (α : Type) where
  shape : ℕ × ℕ × ℕ × ℕ
  val : ℕ → ℕ → ℕ → ℕ → α

/-- The `ValueError` cases of `simple_lst_bin` (source lines 100–133 and
151–152). -/
inductive SLBError
  | tooManyPols
  | badDataShape
  | badFlagsShape
  | badNsamplesShape
  | tooFewEdges
  | nonMonotonicEdges
  | rephaseNeedsFreqsAndAntpos
deriving DecidableEq, Repr

/-- `adjust_lst_bin_edges` (source lines 389–398): shift all edges by
the integer multiple of a turn that brings the first edge into
`[0, 1)`. -/
def adjust_lst_bin_edges (edges : List ℚ) : List ℚ :=
  match edges with
  | [] => []
  | e0 :: rest => (e0 :: rest).map fun e => e - ((⌊e0⌋ : ℤ) : ℚ)

/-- `lsts %= 2pi; lsts[lsts < edges[0]] += 2pi` (source lines 201–202),
in turns. -/
def wrapAbove (e0 : ℚ) (x : ℚ) : ℚ :=
  if x - ((⌊x⌋ : ℤ) : ℚ) < e0 then x - ((⌊x⌋ : ℤ) : ℚ) + 1
  else x - ((⌊x⌋ : ℤ) : ℚ)

/-- `np.digitize(lsts, edges, right=True)`: the number of edges strictly
below the value. -/
def digitizeRight (edges : List ℚ) (x : ℚ) : ℤ :=
  ((edges.filter fun e => e < x).length : ℤ)

/-- `get_lst_bins` (source lines 178–205): per LST, its bin index, its
wrapped value and whether it falls inside the binning range. -/
def get_lst_bins (lsts edges : List ℚ) : List (ℤ × ℚ × Bool) :=
  lsts.map fun x =>
    let y := wrapAbove (edges.headD 0) x
    let b := digitizeRight edges y - 1
    (b, y, decide (0 ≤ b ∧ b < (edges.length : ℤ) - 1))

/-- `(lst_bin_edges[1:] + lst_bin_edges[:-1]) / 2` (source line 137). -/
def binCentres (edges : List ℚ) : List ℚ :=
  List.zipWith (fun lo hi => (lo + hi) / 2) edges (edges.drop 1)

/-- `np.all(np.diff(edges) > 0)` (source line 130). -/
def strictlyInc (l : List ℚ) : Bool :=
  (l.zip (l.drop 1)).all fun ab => decide (ab.1 < ab.2)

/-- The successful output of `simple_lst_bin`: the bin centres, the kept
time indices of each bin, and the filtered (optionally rephased) data,
flag and sample arrays. -/
structure SLBOut where
  centres : List ℚ
  binTimes : List (List ℕ)
  binnedData : NdArr Cx
  binnedFlags : NdArr Bool
  binnedNsamples : NdArr ℚ

/-- The success path of `simple_lst_bin` after all validations (source
lines 136–176). -/
def simple_lst_bin_go (data : NdArr Cx) (data_lsts : List ℚ)
    (lst_bin_edges : List ℚ) (fl : NdArr Bool) (ns : NdArr ℚ)
    (rephase : Bool) (antpos : Option (ℕ → Vec3))
    (rephaseFn : NdArr Cx → List ℚ → NdArr Cx) :
    Except SLBError SLBOut :=
  let edges := adjust_lst_bin_edges lst_bin_edges
  let gb := get_lst_bins data_lsts edges
  let centres := binCentres edges
  let binAt := fun i => (gb.getD i (0, 0, false)).1
  let wlstAt := fun i => (gb.getD i (0, 0, false)).2.1
  let maskAt := fun i => (gb.getD i (0, 0, false)).2.2
  let kept := (List.range data_lsts.length).filter fun i => maskAt i
  let shifts := kept.map fun i => centres.getD (binAt i).toNat 0 - wlstAt i
  let keptShape : ℕ × ℕ × ℕ × ℕ :=
    (kept.length, data.shape.2.1, data.shape.2.2.1, data.shape.2.2.2)
  let dataKept : NdArr Cx :=
    ⟨keptShape, fun i j k l => data.val (kept.getD i 0) j k l⟩
  let flKept : NdArr Bool :=
    ⟨keptShape, fun i j k l => fl.val (kept.getD i 0) j k l⟩
  let nsKept : NdArr ℚ :=
    ⟨keptShape, fun i j k l => ns.val (kept.getD i 0) j k l⟩
  let binTimes := (List.range centres.length).map fun b =>
    kept.filter fun i => binAt i = (b : ℤ)
  if rephase then
    match antpos with
    | none => Except.error SLBError.rephaseNeedsFreqsAndAntpos
    | some _ =>
        Except.ok ⟨centres, binTimes, rephaseFn dataKept shifts, flKept,
          nsKept⟩
  else Except.ok ⟨centres, binTimes, dataKept, flKept, nsKept⟩

/-- `simple_lst_bin` (source lines 36–176): validate, then bin.  The
validations, in source order (lines 97–133): more than 4 polarizations;
data shape differing from
`(len(data_lsts), len(baselines), len(freq_array), npols)`; a supplied
flags array (default: all-False of data shape) of different shape; a
supplied nsamples array (default: all-ones) of different shape; fewer
than two LST bin edges; adjusted bin edges not strictly increasing. -/
def simple_lst_bin (data : NdArr Cx) (data_lsts : List ℚ)
    (baselines : List (ℕ × ℕ)) (lst_bin_edges : List ℚ)
    (freq_array : List ℚ) (flags : Option (NdArr Bool))
    (nsamples : Option (NdArr ℚ)) (rephase : Bool)
    (antpos : Option (ℕ → Vec3))
    (rephaseFn : NdArr Cx → List ℚ → NdArr Cx) :
    Except SLBError SLBOut :=
  let npols := data.shape.2.2.2
  let required : ℕ × ℕ × ℕ × ℕ :=
    (data_lsts.length, baselines.length, freq_array.length, npols)
  if npols > 4 then Except.error SLBError.tooManyPols
  else if data.shape ≠ required then Except.error SLBError.badDataShape
  else
    let fl := flags.getD ⟨data.shape, fun _ _ _ _ => false⟩
    if fl.shape ≠ data.shape then Except.error SLBError.badFlagsShape
    else
      let ns := nsamples.getD ⟨data.shape, fun _ _ _ _ => 1⟩
      if ns.shape ≠ data.shape then Except.error SLBError.badNsamplesShape
      else if lst_bin_edges.length < 2 then Except.error SLBError.tooFewEdges
      else if strictlyInc (adjust_lst_bin_edges lst_bin_edges) then
        simple_lst_bin_go data data_lsts lst_bin_edges fl ns rephase antpos
          rephaseFn
      else Except.error SLBError.nonMonotonicEdges

/-- Concrete data array with 5 polarizations for the C10 witness. -/
def wData10 : NdArr Cx := ⟨(1, 1, 1, 5), fun _ _ _ _ => some ((0 : ℚ), (0 : ℚ))⟩

/-- Forget the orientation of an antenna pair (sort its endpoints). -/
def unord {n : ℕ} (p : Fin n × Fin n) : Fin n × Fin n :=
  if p.1 ≤ p.2 then p else (p.2, p.1)

/-! ## Lemmas and claim theorems -/

lemma ip_comm (u v : ι → ℚ) : ip u v = ip v u := by
  unfold ip
  exact Finset.sum_congr rfl fun r _ => mul_comm _ _

lemma ip_zero_left (v : ι → ℚ) : ip 0 v = 0 := by
  unfold ip
  simp

lemma ip_add_left (u v w : ι → ℚ) : ip (u + v) w = ip u w + ip v w := by
  unfold ip
  rw [← Finset.sum_add_distrib]
  exact Finset.sum_congr rfl fun r _ => by
    simp [add_mul]

lemma ip_sub_left (u v w : ι → ℚ) : ip (u - v) w = ip u w - ip v w := by
  unfold ip
  rw [← Finset.sum_sub_distrib]
  exact Finset.sum_congr rfl fun r _ => by
    simp [sub_mul]

lemma ip_add_right (u v w : ι → ℚ) : ip u (v + w) = ip u v + ip u w := by
  rw [ip_comm, ip_add_left, ip_comm v u, ip_comm w u]

lemma ip_sub_right (u v w : ι → ℚ) : ip u (v - w) = ip u v - ip u w := by
  rw [ip_comm, ip_sub_left, ip_comm v u, ip_comm w u]

lemma ip_smul_right (c : ℚ) (u v : ι → ℚ) : ip u (c • v) = c * ip u v := by
  unfold ip
  rw [Finset.mul_sum]
  exact Finset.sum_congr rfl fun r _ => by
    simp [Pi.smul_apply, smul_eq_mul]
    ring

lemma ip_smul_left (c : ℚ) (u v : ι → ℚ) : ip (c • u) v = c * ip u v := by
  rw [ip_comm, ip_smul_right, ip_comm v u]

/-- A vector with zero self inner product is zero (the index-wise squares
are nonnegative). -/
lemma eq_zero_of_ip_self (u : ι → ℚ) (h : ip u u = 0) : u = 0 := by
  funext r
  have hr := (Finset.sum_eq_zero_iff_of_nonneg
    (fun s _ => mul_self_nonneg (u s))).mp h r (Finset.mem_univ r)
  exact mul_self_eq_zero.mp hr

lemma projCoeff_add (y z u : ι → ℚ) :
    projCoeff (y + z) u = projCoeff y u + projCoeff z u := by
  unfold projCoeff
  rw [ip_add_left, add_div]

lemma projCoeff_sub (y z u : ι → ℚ) :
    projCoeff (y - z) u = projCoeff y u - projCoeff z u := by
  unfold projCoeff
  rw [ip_sub_left, sub_div]

lemma projCoeff_smul (c : ℚ) (y u : ι → ℚ) :
    projCoeff (c • y) u = c * projCoeff y u := by
  unfold projCoeff
  rw [ip_smul_left, mul_div_assoc]

lemma projList_cons (u : ι → ℚ) (us : List (ι → ℚ)) (y : ι → ℚ) :
    projList (u :: us) y = projCoeff y u • u + projList us y := rfl

/-- `projList` is additive in the projected vector. -/
lemma projList_add (us : List (ι → ℚ)) (y z : ι → ℚ) :
    projList us (y + z) = projList us y + projList us z := by
  induction us with
  | nil =>
      show (0 : ι → ℚ) = 0 + 0
      rw [add_zero]
  | cons u us ih =>
      rw [projList_cons, projList_cons, projList_cons, projCoeff_add,
        add_smul, ih]
      abel

/-- `projList` is subtractive in the projected vector. -/
lemma projList_sub (us : List (ι → ℚ)) (y z : ι → ℚ) :
    projList us (y - z) = projList us y - projList us z := by
  induction us with
  | nil =>
      show (0 : ι → ℚ) = 0 - 0
      rw [sub_zero]
  | cons u us ih =>
      rw [projList_cons, projList_cons, projList_cons, projCoeff_sub,
        sub_smul, ih]
      abel

/-- `projList` is homogeneous in the projected vector. -/
lemma projList_smul (us : List (ι → ℚ)) (c : ℚ) (y : ι → ℚ) :
    projList us (c • y) = c • projList us y := by
  induction us with
  | nil =>
      show (0 : ι → ℚ) = c • 0
      rw [smul_zero]
  | cons u us ih =>
      rw [projList_cons, projList_cons, projCoeff_smul, ih, smul_add,
        mul_smul]

/-- A vector orthogonal to every list member projects to zero. -/
lemma projList_of_forall_ip_zero (us : List (ι → ℚ)) (y : ι → ℚ)
    (h : ∀ u ∈ us, ip y u = 0) : projList us y = 0 := by
  induction us with
  | nil => rfl
  | cons u us ih =>
      rw [projList_cons]
      have hc : projCoeff y u = 0 := by
        unfold projCoeff
        rw [h u (List.mem_cons_self u us), zero_div]
      rw [hc, zero_smul, zero_add]
      exact ih fun v hv => h v (List.mem_cons_of_mem u hv)

/-- A vector orthogonal to every list member is orthogonal to every
projection onto the list. -/
lemma ip_projList_of_forall_zero (us : List (ι → ℚ)) (a y : ι → ℚ)
    (h : ∀ u ∈ us, ip a u = 0) : ip a (projList us y) = 0 := by
  induction us with
  | nil =>
      show ip a 0 = 0
      rw [ip_comm, ip_zero_left]
  | cons u us ih =>
      rw [projList_cons, ip_add_right, ip_smul_right,
        h u (List.mem_cons_self u us), mul_zero, zero_add]
      exact ih fun v hv => h v (List.mem_cons_of_mem u hv)

/-- For a pairwise-orthogonal list, projection onto the list preserves
the inner product with each list member. -/
lemma ip_projList_of_mem (us : List (ι → ℚ))
    (h : us.Pairwise fun u v => ip u v = 0) (a : ι → ℚ) (ha : a ∈ us)
    (y : ι → ℚ) : ip a (projList us y) = ip a y := by
  induction us with
  | nil => cases ha
  | cons u us ih =>
      rw [List.pairwise_cons] at h
      rw [projList_cons, ip_add_right, ip_smul_right]
      rcases List.mem_cons.mp ha with h1 | h1
      · rw [h1]
        have hrest : ip u (projList us y) = 0 :=
          ip_projList_of_forall_zero us u y h.1
        rw [hrest, add_zero]
        by_cases hz : ip u u = 0
        · have hu0 : u = 0 := eq_zero_of_ip_self u hz
          rw [hz, mul_zero, hu0, ip_zero_left]
        · unfold projCoeff
          rw [div_mul_cancel₀ _ hz]
          exact ip_comm y u
      · have hau : ip a u = 0 := by
          rw [ip_comm]
          exact h.1 a h1
        rw [hau, mul_zero, zero_add]
        exact ih h.2 h1

/-- The Gram–Schmidt pass preserves pairwise orthogonality of the
accumulator: each new residual is orthogonal to everything before it. -/
lemma gsAcc_pairwise (vs : List (ι → ℚ)) :
    ∀ acc : List (ι → ℚ), (acc.Pairwise fun u v => ip u v = 0) →
      (gsAcc acc vs).Pairwise fun u v => ip u v = 0 := by
  induction vs with
  | nil => exact fun acc h => h
  | cons v vs ih =>
      intro acc h
      refine ih (acc ++ [orthStep acc v]) ?_
      rw [List.pairwise_append]
      refine ⟨h, List.pairwise_singleton _ _, ?_⟩
      intro a ha b hb
      have hb1 : b = orthStep acc v := by
        simpa using hb
      subst hb1
      unfold orthStep
      rw [ip_sub_right, ip_projList_of_mem acc h a ha v, sub_self]

/-- The Gram–Schmidt pass only appends to its accumulator. -/
lemma gsAcc_eq_append (vs : List (ι → ℚ)) :
    ∀ acc : List (ι → ℚ), ∃ rest, gsAcc acc vs = acc ++ rest := by
  induction vs with
  | nil => exact fun acc => ⟨[], (List.append_nil acc).symm⟩
  | cons v vs ih =>
      intro acc
      obtain ⟨rest, hrest⟩ := ih (acc ++ [orthStep acc v])
      refine ⟨orthStep acc v :: rest, ?_⟩
      show gsAcc (acc ++ [orthStep acc v]) vs = _
      rw [hrest, List.append_assoc, List.singleton_append]

/-- A projection onto a list lies in any submodule containing the
list. -/
lemma projList_mem (p : Submodule ℚ (ι → ℚ)) (us : List (ι → ℚ))
    (y : ι → ℚ) (h : ∀ u ∈ us, u ∈ p) : projList us y ∈ p := by
  induction us with
  | nil => exact p.zero_mem
  | cons u us ih =>
      show projCoeff y u • u + (us.map fun u => projCoeff y u • u).sum ∈ p
      exact p.add_mem (p.smul_mem _ (h u (List.mem_cons_self u us)))
        (ih fun v hv => h v (List.mem_cons_of_mem u hv))

/-- Every input vector lies in the span of the Gram–Schmidt output. -/
lemma mem_span_gsAcc (vs : List (ι → ℚ)) :
    ∀ acc : List (ι → ℚ), ∀ w ∈ vs,
      w ∈ Submodule.span ℚ {u : ι → ℚ | u ∈ gsAcc acc vs} := by
  induction vs with
  | nil => exact fun acc w hw => absurd hw (List.not_mem_nil w)
  | cons v vs ih =>
      intro acc w hw
      rcases List.mem_cons.mp hw with h1 | h1
      · rw [h1]
        obtain ⟨rest, hrest⟩ := gsAcc_eq_append vs (acc ++ [orthStep acc v])
        show v ∈ Submodule.span ℚ
          {u : ι → ℚ | u ∈ gsAcc (acc ++ [orthStep acc v]) vs}
        have hmem : ∀ x ∈ acc ++ [orthStep acc v],
            x ∈ Submodule.span ℚ
              {u : ι → ℚ | u ∈ gsAcc (acc ++ [orthStep acc v]) vs} := by
          intro x hx
          refine Submodule.subset_span ?_
          show x ∈ gsAcc (acc ++ [orthStep acc v]) vs
          rw [hrest]
          exact List.mem_append_left rest hx
        have hsum : orthStep acc v + projList acc v ∈ Submodule.span ℚ
            {u : ι → ℚ | u ∈ gsAcc (acc ++ [orthStep acc v]) vs} :=
          Submodule.add_mem _
            (hmem _ (List.mem_append_right acc (List.mem_singleton_self _)))
            (projList_mem _ acc v fun u hu =>
              hmem u (List.mem_append_left _ hu))
        have hv : orthStep acc v + projList acc v = v := by
          unfold orthStep
          abel
        rw [hv] at hsum
        exact hsum
      · exact ih (acc ++ [orthStep acc v]) w h1

/-- Projection onto a pairwise-orthogonal list fixes each list member. -/
lemma projList_self_mem (us : List (ι → ℚ))
    (h : us.Pairwise fun u v => ip u v = 0) (a : ι → ℚ) (ha : a ∈ us) :
    projList us a = a := by
  induction us with
  | nil => cases ha
  | cons u us ih =>
      rw [List.pairwise_cons] at h
      rw [projList_cons]
      rcases List.mem_cons.mp ha with h1 | h1
      · rw [h1]
        have hrest : projList us u = 0 :=
          projList_of_forall_ip_zero us u fun v hv => h.1 v hv
        rw [hrest, add_zero]
        by_cases hz : ip u u = 0
        · have hu0 : u = 0 := eq_zero_of_ip_self u hz
          rw [hu0, smul_zero]
        · unfold projCoeff
          rw [div_self hz, one_smul]
      · have hcz : projCoeff a u = 0 := by
          unfold projCoeff
          rw [ip_comm, h.1 a h1, zero_div]
        rw [hcz, zero_smul, zero_add]
        exact ih h.2 h1

/-- Projection onto a pairwise-orthogonal list fixes its whole span. -/
lemma projList_fix (us : List (ι → ℚ))
    (h : us.Pairwise fun u v => ip u v = 0) (y : ι → ℚ)
    (hy : y ∈ Submodule.span ℚ {u : ι → ℚ | u ∈ us}) :
    projList us y = y := by
  induction hy using Submodule.span_induction with
  | mem x hx => exact projList_self_mem us h x hx
  | zero => exact projList_of_forall_ip_zero us 0 fun u _ => ip_zero_left u
  | add x z hx hz ihx ihz => rw [projList_add, ihx, ihz]
  | smul c x hx ihx => rw [projList_smul, ihx]

/-- The Gram–Schmidt output is pairwise orthogonal. -/
lemma gsOrtho_pairwise (cols : List (ι → ℚ)) :
    (gsOrtho cols).Pairwise fun u v => ip u v = 0 :=
  gsAcc_pairwise cols [] List.Pairwise.nil

/-- Every input vector lies in the span of its Gram–Schmidt output. -/
lemma mem_span_gsOrtho (cols : List (ι → ℚ)) (v : ι → ℚ) (hv : v ∈ cols) :
    v ∈ Submodule.span ℚ {u : ι → ℚ | u ∈ gsOrtho cols} :=
  mem_span_gsAcc cols [] v hv

/-- A matrix-vector product lies in the span of the matrix columns. -/
lemma mulVec_mem_span_cols {k : ℕ} (X : Matrix ι (Fin k) ℚ) (c : Fin k → ℚ) :
    X.mulVec c ∈ Submodule.span ℚ {u : ι → ℚ | u ∈ colsOf X} := by
  have hX : X.mulVec c = ∑ j, c j • fun r => X r j := by
    funext r
    rw [Finset.sum_apply]
    show ∑ j, X r j * c j = _
    exact Finset.sum_congr rfl fun j _ => by
      simp [Pi.smul_apply, smul_eq_mul, mul_comm]
  rw [hX]
  refine Submodule.sum_mem _ fun j _ => ?_
  refine Submodule.smul_mem _ _ (Submodule.subset_span ?_)
  show (fun r => X r j) ∈ colsOf X
  unfold colsOf
  exact List.mem_map.mpr ⟨j, List.mem_finRange j, rfl⟩

/-- The exact least-squares projection fixes the column space: fitting a
vector of the form `X · c` returns it unchanged, for a design of any
rank. -/
lemma lsProj_fix_mulVec {k : ℕ} (X : Matrix ι (Fin k) ℚ) (c : Fin k → ℚ) :
    lsProj X (X.mulVec c) = X.mulVec c := by
  refine projList_fix _ (gsOrtho_pairwise (colsOf X)) _ ?_
  have hle : Submodule.span ℚ {u : ι → ℚ | u ∈ colsOf X}
      ≤ Submodule.span ℚ {u : ι → ℚ | u ∈ gsOrtho (colsOf X)} :=
    Submodule.span_le.mpr fun v hv => mem_span_gsOrtho (colsOf X) v hv
  exact hle (mulVec_mem_span_cols X c)

/-- The exact least-squares projection is additive in the data. -/
lemma lsProj_add {k : ℕ} (X : Matrix ι (Fin k) ℚ) (y z : ι → ℚ) :
    lsProj X (y + z) = lsProj X y + lsProj X z :=
  projList_add _ y z

/-- The exact least-squares projection is subtractive in the data. -/
lemma lsProj_sub {k : ℕ} (X : Matrix ι (Fin k) ℚ) (y z : ι → ℚ) :
    lsProj X (y - z) = lsProj X y - lsProj X z :=
  projList_sub _ y z

/-- The exact least-squares projection is idempotent, for a design of
any rank. -/
lemma lsProj_idem {k : ℕ} (X : Matrix ι (Fin k) ℚ) (y : ι → ℚ) :
    lsProj X (lsProj X y) = lsProj X y := by
  refine projList_fix _ (gsOrtho_pairwise (colsOf X)) _ ?_
  exact projList_mem _ _ y fun u hu => Submodule.subset_span hu

/-- Shifting the data by a vector of the column space shifts the fitted
values by exactly that vector (no rank condition). -/
lemma lsProj_shift {k : ℕ} (X : Matrix ι (Fin k) ℚ) (y : ι → ℚ) (c : Fin k → ℚ) (r : ι) :
    lsProj X (fun s => y s + X.mulVec c s) r
      = lsProj X y r + X.mulVec c r := by
  have h : (fun s => y s + X.mulVec c s) = y + X.mulVec c := rfl
  rw [h, lsProj_add, lsProj_fix_mulVec]
  rfl

/-- Refitting after the fitted component has been replaced by that of a
reference data vector returns the reference's fitted values: the core of
the idempotence of `remove_degen`.  Holds for a design of any rank. -/
lemma lsProj_secondPass {k : ℕ} (X : Matrix ι (Fin k) ℚ) (ys yd : ι → ℚ) :
    lsProj X (fun r => ys r - lsProj X ys r + lsProj X yd r)
      = lsProj X yd := by
  have h : (fun r => ys r - lsProj X ys r + lsProj X yd r)
      = ys - lsProj X ys + lsProj X yd := rfl
  rw [h, lsProj_add, lsProj_sub, lsProj_idem, lsProj_idem]
  abel

/-- Each summand of the least-squares objective is nonnegative. -/
lemma logcalObj_nonneg {nA nB nG : ℕ} (S : RedSystem nA nB nG)
    (dAmp dPhs : Fin nB → ℚ) (s : LogSol nA nG) :
    0 ≤ logcalObj S dAmp dPhs s := by
  refine Finset.sum_nonneg ?_
  intro b _
  have h1 := sq_nonneg (dAmp b - modelAmp S s b)
  have h2 := sq_nonneg (dPhs b - modelPhs S s b)
  linarith

/-- On data generated exactly by a true solution, the true solution has
objective zero, hence is a least-squares solution. -/
lemma truth_isLogcalSolution {nA nB nG : ℕ} (S : RedSystem nA nB nG)
    (truth : LogSol nA nG) :
    IsLogcalSolution S (modelAmp S truth) (modelPhs S truth) truth := by
  intro t
  have : logcalObj S (modelAmp S truth) (modelPhs S truth) truth = 0 := by
    unfold logcalObj
    refine Finset.sum_eq_zero ?_
    intro b _
    simp
  rw [this]
  exact logcalObj_nonneg S _ _ t

/-- C2: for noiseless redundant data generated as
`data = g_i * conj(g_j) * u_k` from a true solution, any least-squares
solution returned by `logcal` reproduces the data exactly on every
baseline of every redundant group: the model built from the returned
gains and unique-baseline visibilities equals the input data (in exact
arithmetic; the float implementation attains this to ~1e-7 relative
precision). -/
theorem logcal_reproduces_data {nA nB nG : ℕ} (S : RedSystem nA nB nG)
    (truth sol : LogSol nA nG)
    (hsol : IsLogcalSolution S (modelAmp S truth) (modelPhs S truth) sol) :
    ∀ b : Fin nB, modelAmp S sol b = modelAmp S truth b
      ∧ modelPhs S sol b = modelPhs S truth b := by
  have hzero : logcalObj S (modelAmp S truth) (modelPhs S truth) sol = 0 := by
    have hle := hsol truth
    have htruth : logcalObj S (modelAmp S truth) (modelPhs S truth) truth
        = 0 := by
      unfold logcalObj
      refine Finset.sum_eq_zero ?_
      intro b _
      simp
    have hge := logcalObj_nonneg S (modelAmp S truth) (modelPhs S truth) sol
    rw [htruth] at hle
    linarith
  have hterm : ∀ b ∈ Finset.univ (α := Fin nB),
      (modelAmp S truth b - modelAmp S sol b) ^ 2
        + (modelPhs S truth b - modelPhs S sol b) ^ 2 = 0 := by
    refine (Finset.sum_eq_zero_iff_of_nonneg ?_).mp hzero
    intro b _
    have h1 := sq_nonneg (modelAmp S truth b - modelAmp S sol b)
    have h2 := sq_nonneg (modelPhs S truth b - modelPhs S sol b)
    linarith
  intro b
  have h := hterm b (Finset.mem_univ b)
  have h1 := sq_nonneg (modelAmp S truth b - modelAmp S sol b)
  have h2 := sq_nonneg (modelPhs S truth b - modelPhs S sol b)
  constructor
  · nlinarith
  · nlinarith

/-- A solution with zero objective is a least-squares solution. -/
lemma isLogcalSolution_of_obj_eq_zero {nA nB nG : ℕ}
    (S : RedSystem nA nB nG) (dAmp dPhs : Fin nB → ℚ) (s : LogSol nA nG)
    (h : logcalObj S dAmp dPhs s = 0) : IsLogcalSolution S dAmp dPhs s := by
  intro t
  rw [h]
  exact logcalObj_nonneg S dAmp dPhs t

/-- Witness for C2 at a concrete input: a one-baseline system over two
antennas; a solution different from the truth but with zero residual is
a least-squares solution, and the theorem applies to it. -/
theorem logcal_reproduces_data_witness :
    modelAmp c2System c2Sol 0 = modelAmp c2System c2Truth 0
      ∧ modelPhs c2System c2Sol 0 = modelPhs c2System c2Truth 0 :=
  logcal_reproduces_data c2System c2Truth c2Sol
    (isLogcalSolution_of_obj_eq_zero _ _ _ _ (by
      norm_num [logcalObj, modelAmp, modelPhs, c2System, c2Sol, c2Truth,
        Fin.sum_univ_one])) 0

/-- For a fixed group, the key-building map is injective in the
baseline. -/
lemma eqKey_injective (k : ℕ) (up : Pol) : Function.Injective (eqKey k up) := by
  rintro ⟨i, j, fa, fb⟩ ⟨i2, j2, fa2, fb2⟩ h
  simp only [eqKey, EqKey.mk.injEq] at h
  obtain ⟨h1, h2, h3, h4, -, -⟩ := h
  subst h1; subst h2; subst h3; subst h4; rfl

/-- Every key emitted for group `k` refers to unique-baseline unknown
`(k, headPol g)`. -/
lemma eqKey_ubl (k : ℕ) (up : Pol) (b : Bl) : (eqKey k up b).ubl = (k, up) :=
  rfl

/-- C6: in the equation builder, (1) the emitted equation keys are
pairwise distinct across all groups and polarization splits (given that
no group lists the same baseline twice); (2) each baseline of each group
yields an equation keyed by that group's index and representative
polarization — in particular, in `4pol_minV` reds where a group contains
both cross-feed orderings `(i,j,xy)` and `(i,j,yx)`, both equations are
present and (3) refer to the same unique-baseline unknown. -/
theorem build_eqs_minV_same_ubl_nodup_keys (reds : List (List Bl))
    (hnd : ∀ g ∈ reds, g.Nodup) :
    ((build_eqs reds).map Prod.fst).Nodup
      ∧ (∀ k g, reds[k]? = some g → ∀ b ∈ g,
          (eqKey k (headPol g) b, b) ∈ build_eqs reds)
      ∧ (∀ k g, reds[k]? = some g → ∀ b1 ∈ g, ∀ b2 ∈ g,
          (eqKey k (headPol g) b1).ubl = (eqKey k (headPol g) b2).ubl) := by
  refine ⟨?_, ?_, ?_⟩
  · have hmap : (build_eqs reds).map Prod.fst
        = reds.enum.flatMap fun kg => kg.2.map (eqKey kg.1 (headPol kg.2)) := by
      simp [build_eqs, List.map_flatMap, List.map_map, Function.comp_def]
    rw [hmap, List.nodup_flatMap]
    constructor
    · intro kg hkg
      refine List.Nodup.map (eqKey_injective kg.1 (headPol kg.2)) ?_
      refine hnd kg.2 ?_
      have := List.mem_enum_iff_getElem?.mp hkg
      exact List.getElem?_mem this
    · have hfst : List.Pairwise (fun a b : ℕ × List Bl => a.1 ≠ b.1)
          reds.enum := by
        rw [← List.pairwise_map (f := Prod.fst)]
        rw [List.enum_map_fst]
        exact List.nodup_range reds.length
      refine hfst.imp ?_
      intro a b hab
      intro x hxa hxb
      have ha : x.ublIdx = a.1 := by
        obtain ⟨ba, -, rfl⟩ := List.mem_map.mp hxa
        rfl
      have hb : x.ublIdx = b.1 := by
        obtain ⟨bb, -, rfl⟩ := List.mem_map.mp hxb
        rfl
      exact hab (ha ▸ hb)
  · intro k g hk b hb
    unfold build_eqs
    rw [List.mem_flatMap]
    refine ⟨(k, g), List.mem_enum_iff_getElem?.mpr hk, ?_⟩
    exact List.mem_map.mpr ⟨b, hb, rfl⟩
  · intro k g _ b1 _ b2 _
    rfl

/-- Witness for C6 at a concrete input: the `4pol_minV` reds of a
three-antenna linear array have duplicate-free groups, so the built
equation keys are pairwise distinct, every baseline's equation is
present, and baselines of one group share their unique-baseline
unknown. -/
theorem build_eqs_minV_same_ubl_nodup_keys_witness :
    ((build_eqs c6Reds).map Prod.fst).Nodup
      ∧ (∀ k g, c6Reds[k]? = some g → ∀ b ∈ g,
          (eqKey k (headPol g) b, b) ∈ build_eqs c6Reds)
      ∧ (∀ k g, c6Reds[k]? = some g → ∀ b1 ∈ g, ∀ b2 ∈ g,
          (eqKey k (headPol g) b1).ubl = (eqKey k (headPol g) b2).ubl) :=
  build_eqs_minV_same_ubl_nodup_keys c6Reds (by decide)

/-- Evaluation of the affine design matrix against a coefficient vector
`(constant, gradient)`. -/
lemma affDesign_mulVec {nA : ℕ} (pos : Fin nA → Vec3) (c0 : ℚ) (b : Vec3)
    (i : Fin nA) :
    (affDesign pos).mulVec (affCoeff c0 b) i = c0 + dot3 b (pos i) := by
  simp [affDesign, affCoeff, Matrix.mulVec, Matrix.dotProduct,
    Fin.sum_univ_succ, dot3, mul_comm]

/-- Evaluation of the `4pol` stacked design matrix on the first-feed
rows. -/
lemma fourPolDesign_mulVec_jx {nA : ℕ} (pos : Fin nA → Vec3) (cx cy : ℚ)
    (b : Vec3) (i : Fin nA) :
    (fourPolDesign pos).mulVec (fourPolCoeff cx cy b) (feedRow Feed.jx i)
      = cx + dot3 b (pos i) := by
  simp [fourPolDesign, fourPolCoeff, feedRow, Matrix.mulVec,
    Matrix.dotProduct, Fin.sum_univ_succ, dot3, mul_comm]

/-- Evaluation of the `4pol` stacked design matrix on the second-feed
rows. -/
lemma fourPolDesign_mulVec_jy {nA : ℕ} (pos : Fin nA → Vec3) (cx cy : ℚ)
    (b : Vec3) (i : Fin nA) :
    (fourPolDesign pos).mulVec (fourPolCoeff cx cy b) (feedRow Feed.jy i)
      = cy + dot3 b (pos i) := by
  simp [fourPolDesign, fourPolCoeff, feedRow, Matrix.mulVec,
    Matrix.dotProduct, Fin.sum_univ_succ, dot3, mul_comm]

/-- Evaluation of the `4pol_minV` stacked design matrix. -/
lemma minVDesign_mulVec {nA : ℕ} (pos : Fin nA → Vec3) (c0 : ℚ) (b : Vec3)
    (f : Feed) (i : Fin nA) :
    (minVDesign pos).mulVec (affCoeff c0 b) (feedRow f i)
      = c0 + dot3 b (pos i) := by
  cases f <;>
    simp [minVDesign, affCoeff, feedRow, Matrix.mulVec, Matrix.dotProduct,
      Fin.sum_univ_succ, dot3, mul_comm]

/-- Applying a degenerate transformation shifts the per-feed mean gain
log-amplitude by the transformation's amplitude parameter. -/
lemma meanAmp_applyDegen {nA nG : ℕ} (G : RedGeometry nA nG)
    (p : DegenParams) (s : DegenSol nA nG) (f : Feed) (hA : 0 < nA) :
    meanAmp (applyDegen G p s) f = meanAmp s f + p.amp f := by
  have hne : (nA : ℚ) ≠ 0 := by
    exact_mod_cast hA.ne.symm
  unfold meanAmp applyDegen
  rw [Finset.sum_add_distrib, Finset.sum_const, Finset.card_univ,
    Fintype.card_fin]
  field_simp
  ring

/-- The per-feed fit (modes `1pol`/`2pol`) tracks a degenerate phase
shift exactly: the fitted plane shifts by the applied constant and
gradient.  Holds for every array geometry — the shift lies in the
design's column space, which the exact projection fixes regardless of
rank, so planar and collinear arrays are covered. -/
lemma perFeedFit_shift {nA : ℕ} (pos : Fin nA → Vec3)
    (truth shifted : Feed → Fin nA → ℚ) (p : DegenParams)
    (hs : ∀ f i, shifted f i = truth f i + p.phsC f + dot3 (p.phsG f) (pos i)) :
    ∀ f i, perFeedFit pos shifted f i
      = perFeedFit pos truth f i + p.phsC f + dot3 (p.phsG f) (pos i) := by
  intro f i
  have hfun : shifted f = fun j => truth f j
      + (affDesign pos).mulVec (affCoeff (p.phsC f) (p.phsG f)) j := by
    funext j
    rw [hs f j, affDesign_mulVec]
    ring
  show lsProj (affDesign pos) (shifted f) i
    = lsProj (affDesign pos) (truth f) i + p.phsC f
      + dot3 (p.phsG f) (pos i)
  rw [hfun, lsProj_shift, affDesign_mulVec]
  ring

/-- The joint `4pol` fit tracks a degenerate phase shift exactly, given
the common-gradient constraint of that mode; no rank condition on the
array geometry. -/
lemma fourPolFit_shift {nA : ℕ} (pos : Fin nA → Vec3)
    (truth shifted : Feed → Fin nA → ℚ) (p : DegenParams)
    (hgrad : p.phsG Feed.jx = p.phsG Feed.jy)
    (hs : ∀ f i, shifted f i = truth f i + p.phsC f + dot3 (p.phsG f) (pos i)) :
    ∀ f i, fourPolFit pos shifted f i
      = fourPolFit pos truth f i + p.phsC f + dot3 (p.phsG f) (pos i) := by
  have hstack : stackPhs shifted = fun r => stackPhs truth r
      + (fourPolDesign pos).mulVec
          (fourPolCoeff (p.phsC Feed.jx) (p.phsC Feed.jy) (p.phsG Feed.jx))
          r := by
    funext r
    cases r with
    | inl a =>
        show shifted Feed.jx a = truth Feed.jx a + _
        rw [hs Feed.jx a]
        have := fourPolDesign_mulVec_jx pos (p.phsC Feed.jx) (p.phsC Feed.jy)
          (p.phsG Feed.jx) a
        simp only [feedRow] at this
        rw [this]
        ring
    | inr a =>
        show shifted Feed.jy a = truth Feed.jy a + _
        rw [hs Feed.jy a]
        have := fourPolDesign_mulVec_jy pos (p.phsC Feed.jx) (p.phsC Feed.jy)
          (p.phsG Feed.jx) a
        simp only [feedRow] at this
        rw [this, hgrad]
        ring
  intro f i
  show lsProj (fourPolDesign pos) (stackPhs shifted) (feedRow f i)
    = lsProj (fourPolDesign pos) (stackPhs truth) (feedRow f i)
      + p.phsC f + dot3 (p.phsG f) (pos i)
  rw [hstack, lsProj_shift]
  cases f
  · rw [fourPolDesign_mulVec_jx]
    ring
  · rw [fourPolDesign_mulVec_jy, hgrad]
    ring

/-- The joint `4pol_minV` fit tracks a degenerate phase shift exactly,
given the common-gradient and common-phase constraints of that mode; no
rank condition on the array geometry. -/
lemma minVFit_shift {nA : ℕ} (pos : Fin nA → Vec3)
    (truth shifted : Feed → Fin nA → ℚ) (p : DegenParams)
    (hgrad : p.phsG Feed.jx = p.phsG Feed.jy)
    (hconst : p.phsC Feed.jx = p.phsC Feed.jy)
    (hs : ∀ f i, shifted f i = truth f i + p.phsC f + dot3 (p.phsG f) (pos i)) :
    ∀ f i, minVFit pos shifted f i
      = minVFit pos truth f i + p.phsC f + dot3 (p.phsG f) (pos i) := by
  have hstack : stackPhs shifted = fun r => stackPhs truth r
      + (minVDesign pos).mulVec
          (affCoeff (p.phsC Feed.jx) (p.phsG Feed.jx)) r := by
    funext r
    cases r with
    | inl a =>
        show shifted Feed.jx a = truth Feed.jx a + _
        rw [hs Feed.jx a]
        have := minVDesign_mulVec pos (p.phsC Feed.jx) (p.phsG Feed.jx)
          Feed.jx a
        simp only [feedRow] at this
        rw [this]
        ring
    | inr a =>
        show shifted Feed.jy a = truth Feed.jy a + _
        rw [hs Feed.jy a]
        have := minVDesign_mulVec pos (p.phsC Feed.jx) (p.phsG Feed.jx)
          Feed.jy a
        simp only [feedRow] at this
        rw [this, hgrad, hconst]
        ring
  intro f i
  show lsProj (minVDesign pos) (stackPhs shifted) (feedRow f i)
    = lsProj (minVDesign pos) (stackPhs truth) (feedRow f i)
      + p.phsC f + dot3 (p.phsG f) (pos i)
  rw [hstack, lsProj_shift, minVDesign_mulVec]
  cases f
  · ring
  · rw [hgrad, hconst]
    ring

/-- Second-pass property of the per-feed fit: refitting the phases left
by one pass of degeneracy removal yields the reference's fitted
plane. -/
lemma perFeed_secondPass {nA : ℕ} (pos : Fin nA → Vec3)
    (sPhs dPhs : Feed → Fin nA → ℚ) :
    ∀ f i, perFeedFit pos (fun f i => sPhs f i - perFeedFit pos sPhs f i
        + perFeedFit pos dPhs f i) f i = perFeedFit pos dPhs f i := by
  intro f i
  show lsProj (affDesign pos) (fun j => sPhs f j
      - lsProj (affDesign pos) (sPhs f) j
      + lsProj (affDesign pos) (dPhs f) j) i
    = lsProj (affDesign pos) (dPhs f) i
  rw [lsProj_secondPass]

/-- After one pass of degeneracy removal, the mode's fitted phase plane
of the result coincides with the fitted plane of the reference
solution. -/
lemma phaseFit_secondPass {nA : ℕ} (mode : PolMode) (pos : Fin nA → Vec3)
    (sPhs dPhs : Feed → Fin nA → ℚ) :
    ∀ f i, phaseFit mode pos (passPhs mode pos sPhs dPhs) f i
      = phaseFit mode pos dPhs f i := by
  cases mode
  case fourPol =>
    have hstack : stackPhs (passPhs PolMode.fourPol pos sPhs dPhs)
        = fun r => stackPhs sPhs r
          - lsProj (fourPolDesign pos) (stackPhs sPhs) r
          + lsProj (fourPolDesign pos) (stackPhs dPhs) r := by
      funext r
      cases r with
      | inl a => rfl
      | inr a => rfl
    intro f i
    show lsProj (fourPolDesign pos)
        (stackPhs (passPhs PolMode.fourPol pos sPhs dPhs)) (feedRow f i)
      = lsProj (fourPolDesign pos) (stackPhs dPhs) (feedRow f i)
    rw [hstack, lsProj_secondPass]
  case fourPolMinV =>
    have hstack : stackPhs (passPhs PolMode.fourPolMinV pos sPhs dPhs)
        = fun r => stackPhs sPhs r
          - lsProj (minVDesign pos) (stackPhs sPhs) r
          + lsProj (minVDesign pos) (stackPhs dPhs) r := by
      funext r
      cases r with
      | inl a => rfl
      | inr a => rfl
    intro f i
    show lsProj (minVDesign pos)
        (stackPhs (passPhs PolMode.fourPolMinV pos sPhs dPhs)) (feedRow f i)
      = lsProj (minVDesign pos) (stackPhs dPhs) (feedRow f i)
    rw [hstack, lsProj_secondPass]
  case onePol => exact perFeed_secondPass pos sPhs dPhs
  case twoPol => exact perFeed_secondPass pos sPhs dPhs
  case unrecognized => exact perFeed_secondPass pos sPhs dPhs

/-- After one pass of degeneracy removal the per-feed mean log-amplitude
equals that of the reference solution. -/
lemma meanAmp_removeDegenOk {nA nG : ℕ} (mode : PolMode)
    (G : RedGeometry nA nG) (s degen : DegenSol nA nG) (f : Feed) :
    meanAmp (removeDegenOk mode G s degen) f = meanAmp degen f := by
  show (∑ i, (s.gAmp f i - meanAmp s f + meanAmp degen f)) / (nA : ℚ)
    = meanAmp degen f
  rcases Nat.eq_zero_or_pos nA with hA | hA
  · subst hA
    simp [meanAmp]
  · have hne : (nA : ℚ) ≠ 0 := by
      exact_mod_cast hA.ne.symm
    rw [Finset.sum_add_distrib, Finset.sum_sub_distrib, Finset.sum_const,
      Finset.sum_const, Finset.card_univ, Fintype.card_fin]
    unfold meanAmp
    field_simp

/-- Two solutions with equal fields are equal. -/
lemma DegenSol_eq {nA nG : ℕ} {a b : DegenSol nA nG} (h1 : a.gAmp = b.gAmp)
    (h2 : a.gPhs = b.gPhs) (h3 : a.vAmp = b.vAmp) (h4 : a.vPhs = b.vPhs) :
    a = b := by
  cases a
  cases b
  cases h1
  cases h2
  cases h3
  cases h4
  rfl

/-- A degenerate transformation allowed in a pol mode has equal phase
gradients on the two feeds of every group polarization the mode
permits. -/
lemma phsG_eq_of_allowed (mode : PolMode) (p : DegenParams) (pq : Pol)
    (hp : p.allowed mode) (hpol : polOk mode pq) :
    p.phsG pq.1 = p.phsG pq.2 := by
  cases mode with
  | onePol =>
      have h := hpol
      unfold polOk at h
      rw [h]
  | twoPol =>
      have h : pq.1 = pq.2 := hpol
      rw [h]
  | fourPol =>
      cases hfst : pq.1 <;> cases hsnd : pq.2 <;>
        simp_all [DegenParams.allowed]
  | fourPolMinV =>
      cases hfst : pq.1 <;> cases hsnd : pq.2 <;>
        simp_all [DegenParams.allowed]
  | unrecognized => exact absurd hp id

/-- Sanity check of the embedding: a degenerate transformation that is
allowed in the given pol mode leaves the model value
`g_i * conj(g_j) * u_k` of every baseline unchanged (so `applyDegen`
really ranges over the degenerate subspace of spec §4.5). -/
lemma applyDegen_preserves_model {nA nG : ℕ} (mode : PolMode)
    (G : RedGeometry nA nG) (p : DegenParams) (s : DegenSol nA nG)
    (hp : p.allowed mode) (i j : Fin nA) (k : Fin nG)
    (hpol : polOk mode (G.gpol k))
    (hblv : ∀ d, blvOf G k d = G.pos i d - G.pos j d) :
    blModelAmp G (applyDegen G p s) i j k = blModelAmp G s i j k
      ∧ blModelPhs G (applyDegen G p s) i j k = blModelPhs G s i j k := by
  constructor
  · show (s.gAmp (G.gpol k).1 i + p.amp (G.gpol k).1)
      + (s.gAmp (G.gpol k).2 j + p.amp (G.gpol k).2)
      + (s.vAmp k - p.amp (G.gpol k).1 - p.amp (G.gpol k).2)
      = blModelAmp G s i j k
    unfold blModelAmp
    ring
  · show (s.gPhs (G.gpol k).1 i + p.phsC (G.gpol k).1
        + dot3 (p.phsG (G.gpol k).1) (G.pos i))
      - (s.gPhs (G.gpol k).2 j + p.phsC (G.gpol k).2
        + dot3 (p.phsG (G.gpol k).2) (G.pos j))
      + (s.vPhs k - (p.phsC (G.gpol k).1 - p.phsC (G.gpol k).2)
        - dot3 (p.phsG (G.gpol k).1) (blvOf G k))
      = blModelPhs G s i j k
    have hsame : p.phsG (G.gpol k).1 = p.phsG (G.gpol k).2 :=
      phsG_eq_of_allowed mode p (G.gpol k) hp hpol
    have hdot : dot3 (p.phsG (G.gpol k).1) (blvOf G k)
        = dot3 (p.phsG (G.gpol k).1) (G.pos i)
          - dot3 (p.phsG (G.gpol k).2) (G.pos j) := by
      rw [← hsame]
      unfold dot3
      rw [← Finset.sum_sub_distrib]
      refine Finset.sum_congr rfl ?_
      intro d _
      rw [hblv d]
      ring
    rw [hdot]
    unfold blModelPhs
    ring

/-- C1: for any true gains and unique-baseline visibilities and any
redundantly calibrated solution of the data they generate — any
solution differing from the truth by a transformation of the degenerate
subspace of the pol mode — `remove_degen` with `degen_sol` set to the
true gains returns exactly the true gains and the true visibilities, in
every pol mode (`1pol`, `2pol`, `4pol`, `4pol_minV`; exact arithmetic
renders "to numerical precision" as equality).  No condition on the
array geometry: the exact least-squares projection is total on
rank-deficient designs, so the planar and collinear arrays of the test
suite and spec §8 are covered. -/
theorem remove_degen_recovers {nA nG : ℕ} (mode : PolMode)
    (G : RedGeometry nA nG) (truth : DegenSol nA nG) (p : DegenParams)
    (hmode : mode ≠ PolMode.unrecognized)
    (hp : p.allowed mode)
    (hpol : ∀ k, polOk mode (G.gpol k))
    (hA : 0 < nA) :
    removeDegen mode G (applyDegen G p truth) truth = Except.ok truth := by
  unfold removeDegen
  rw [if_neg hmode]
  congr 1
  have hs : ∀ f i, (applyDegen G p truth).gPhs f i
      = truth.gPhs f i + p.phsC f + dot3 (p.phsG f) (G.pos i) :=
    fun f i => rfl
  have hfs : ∀ f i, phaseFit mode G.pos (applyDegen G p truth).gPhs f i
      = phaseFit mode G.pos truth.gPhs f i + p.phsC f
        + dot3 (p.phsG f) (G.pos i) := by
    cases mode with
    | onePol => exact perFeedFit_shift G.pos truth.gPhs _ p hs
    | twoPol => exact perFeedFit_shift G.pos truth.gPhs _ p hs
    | fourPol => exact fourPolFit_shift G.pos truth.gPhs _ p hp hs
    | fourPolMinV => exact minVFit_shift G.pos truth.gPhs _ p hp.1 hp.2 hs
    | unrecognized => exact absurd rfl hmode
  refine DegenSol_eq ?_ ?_ ?_ ?_
  · funext f i
    show (applyDegen G p truth).gAmp f i - meanAmp (applyDegen G p truth) f
      + meanAmp truth f = truth.gAmp f i
    rw [meanAmp_applyDegen G p truth f hA]
    show truth.gAmp f i + p.amp f - (meanAmp truth f + p.amp f)
      + meanAmp truth f = truth.gAmp f i
    ring
  · funext f i
    show (applyDegen G p truth).gPhs f i
      - phaseFit mode G.pos (applyDegen G p truth).gPhs f i
      + phaseFit mode G.pos truth.gPhs f i = truth.gPhs f i
    rw [hfs f i, hs f i]
    ring
  · funext k
    show (applyDegen G p truth).vAmp k
      + (meanAmp (applyDegen G p truth) (G.gpol k).1
          - meanAmp truth (G.gpol k).1)
      + (meanAmp (applyDegen G p truth) (G.gpol k).2
          - meanAmp truth (G.gpol k).2)
      = truth.vAmp k
    rw [meanAmp_applyDegen G p truth (G.gpol k).1 hA,
      meanAmp_applyDegen G p truth (G.gpol k).2 hA]
    show truth.vAmp k - p.amp (G.gpol k).1 - p.amp (G.gpol k).2 + _ + _
      = truth.vAmp k
    ring
  · funext k
    show (applyDegen G p truth).vPhs k
      + ((phaseFit mode G.pos (applyDegen G p truth).gPhs
            (G.gpol k).1 (G.gi k)
          - phaseFit mode G.pos truth.gPhs (G.gpol k).1 (G.gi k))
        - (phaseFit mode G.pos (applyDegen G p truth).gPhs
            (G.gpol k).2 (G.gj k)
          - phaseFit mode G.pos truth.gPhs (G.gpol k).2 (G.gj k)))
      = truth.vPhs k
    rw [hfs (G.gpol k).1 (G.gi k), hfs (G.gpol k).2 (G.gj k)]
    have hsame : p.phsG (G.gpol k).1 = p.phsG (G.gpol k).2 :=
      phsG_eq_of_allowed mode p (G.gpol k) hp (hpol k)
    have hdot : dot3 (p.phsG (G.gpol k).1) (blvOf G k)
        = dot3 (p.phsG (G.gpol k).1) (G.pos (G.gi k))
          - dot3 (p.phsG (G.gpol k).2) (G.pos (G.gj k)) := by
      rw [← hsame]
      unfold dot3 blvOf
      rw [← Finset.sum_sub_distrib]
      refine Finset.sum_congr rfl ?_
      intro d _
      ring
    show truth.vPhs k - (p.phsC (G.gpol k).1 - p.phsC (G.gpol k).2)
        - dot3 (p.phsG (G.gpol k).1) (blvOf G k)
      + ((phaseFit mode G.pos truth.gPhs (G.gpol k).1 (G.gi k)
            + p.phsC (G.gpol k).1
            + dot3 (p.phsG (G.gpol k).1) (G.pos (G.gi k))
          - phaseFit mode G.pos truth.gPhs (G.gpol k).1 (G.gi k))
        - (phaseFit mode G.pos truth.gPhs (G.gpol k).2 (G.gj k)
            + p.phsC (G.gpol k).2
            + dot3 (p.phsG (G.gpol k).2) (G.pos (G.gj k))
          - phaseFit mode G.pos truth.gPhs (G.gpol k).2 (G.gj k)))
      = truth.vPhs k
    rw [hdot]
    ring

/-- C7: calling `remove_degen` with an unrecognized pol mode raises the
configuration error for every input, before any numeric work — the
result is the distinguished configuration error and never a silently
defaulted solution. -/
theorem remove_degen_unrecognized_raises {nA nG : ℕ}
    (G : RedGeometry nA nG) (s degen : DegenSol nA nG) :
    removeDegen PolMode.unrecognized G s degen
      = Except.error DegenError.unrecognizedPolMode := rfl

/-- One pass of the numeric part of `remove_degen` is idempotent: the
second pass finds the reference's own mean amplitude and fitted phase
plane, so it changes nothing. -/
lemma removeDegenOk_idem {nA nG : ℕ} (mode : PolMode)
    (G : RedGeometry nA nG) (s degen : DegenSol nA nG) :
    removeDegenOk mode G (removeDegenOk mode G s degen) degen
      = removeDegenOk mode G s degen := by
  have hfv := phaseFit_secondPass mode G.pos s.gPhs degen.gPhs
  have hstack : (removeDegenOk mode G s degen).gPhs
      = passPhs mode G.pos s.gPhs degen.gPhs := rfl
  refine DegenSol_eq ?_ ?_ ?_ ?_
  · funext f i
    show (removeDegenOk mode G s degen).gAmp f i
      - meanAmp (removeDegenOk mode G s degen) f + meanAmp degen f
      = (removeDegenOk mode G s degen).gAmp f i
    rw [meanAmp_removeDegenOk]
    ring
  · funext f i
    show (removeDegenOk mode G s degen).gPhs f i
      - phaseFit mode G.pos (removeDegenOk mode G s degen).gPhs f i
      + phaseFit mode G.pos degen.gPhs f i
      = (removeDegenOk mode G s degen).gPhs f i
    rw [hstack, hfv f i]
    ring
  · funext k
    show (removeDegenOk mode G s degen).vAmp k
      + (meanAmp (removeDegenOk mode G s degen) (G.gpol k).1
          - meanAmp degen (G.gpol k).1)
      + (meanAmp (removeDegenOk mode G s degen) (G.gpol k).2
          - meanAmp degen (G.gpol k).2)
      = (removeDegenOk mode G s degen).vAmp k
    rw [meanAmp_removeDegenOk, meanAmp_removeDegenOk]
    ring
  · funext k
    show (removeDegenOk mode G s degen).vPhs k
      + ((phaseFit mode G.pos (removeDegenOk mode G s degen).gPhs
            (G.gpol k).1 (G.gi k)
          - phaseFit mode G.pos degen.gPhs (G.gpol k).1 (G.gi k))
        - (phaseFit mode G.pos (removeDegenOk mode G s degen).gPhs
            (G.gpol k).2 (G.gj k)
          - phaseFit mode G.pos degen.gPhs (G.gpol k).2 (G.gj k)))
      = (removeDegenOk mode G s degen).vPhs k
    rw [hstack, hfv (G.gpol k).1 (G.gi k), hfv (G.gpol k).2 (G.gj k)]
    ring

/-- C8: applying `remove_degen` twice in a row, with the same antenna
positions, the same mode and the same reference solution, yields exactly
the same result as applying it once: the degeneracy-removal projection
is idempotent (and an unrecognized mode errors identically both
times). -/
theorem remove_degen_idempotent {nA nG : ℕ} (mode : PolMode)
    (G : RedGeometry nA nG) (s degen : DegenSol nA nG) :
    (removeDegen mode G s degen).bind
        (fun s1 => removeDegen mode G s1 degen)
      = removeDegen mode G s degen := by
  by_cases hmode : mode = PolMode.unrecognized
  · subst hmode
    rfl
  · have h1 : removeDegen mode G s degen
        = Except.ok (removeDegenOk mode G s degen) := by
      unfold removeDegen
      rw [if_neg hmode]
    rw [h1]
    show removeDegen mode G (removeDegenOk mode G s degen) degen
      = Except.ok (removeDegenOk mode G s degen)
    unfold removeDegen
    rw [if_neg hmode]
    rw [removeDegenOk_idem]

/-- Witness for C1 at a concrete input: the spec §8 three-antenna
collinear — hence planar and rank-deficient — `1pol` array with a
nonzero degenerate offset (amplitude, phase and east-west phase
gradient) applied to the true solution; `remove_degen` with the truth as
`degen_sol` returns exactly the truth. -/
theorem remove_degen_recovers_witness :
    PolMode.onePol ≠ PolMode.unrecognized
      ∧ wParams.allowed PolMode.onePol
      ∧ (0 : ℕ) < 3
      ∧ removeDegen PolMode.onePol wGeom (applyDegen wGeom wParams wTruth)
          wTruth = Except.ok wTruth :=
  ⟨by decide, ⟨rfl, rfl, rfl⟩, by norm_num,
    remove_degen_recovers PolMode.onePol wGeom wTruth wParams (by decide)
      ⟨rfl, rfl, rfl⟩ (fun k => rfl) (by norm_num)⟩

/-- An unflagged entry has finite data. -/
lemma procFlags_false_isSome {t np : ℕ} (data : Fin t → Fin np → Cx)
    (nsamples : Fin t → Fin np → ℚ) (flags : Fin t → Fin np → Bool)
    (fth sct : ℚ) (sclip : Fin t → Fin np → Bool) (n : Fin t) (p : Fin np)
    (h : procFlags data nsamples flags fth sct sclip n p = false) :
    (data n p).isSome = true := by
  have h1 : procFlags1 data nsamples flags n p = false := by
    unfold procFlags at h
    by_cases hs : sct > 0
    · rw [if_pos hs] at h
      simp only [Bool.or_eq_false_iff] at h
      exact h.1.1
    · rw [if_neg hs] at h
      simp only [Bool.or_eq_false_iff] at h
      exact h.1
  unfold procFlags1 at h1
  simp only [Bool.or_eq_false_iff] at h1
  have h2 : (data n p).isNone = false := h1.1.2
  cases hd : data n p with
  | none =>
      rw [hd] at h2
      exact absurd h2 (by simp)
  | some v => rfl

/-- An input-flagged entry stays flagged. -/
lemma procFlags_of_flags {t np : ℕ} (data : Fin t → Fin np → Cx)
    (nsamples : Fin t → Fin np → ℚ) (flags : Fin t → Fin np → Bool)
    (fth sct : ℚ) (sclip : Fin t → Fin np → Bool) (n : Fin t) (p : Fin np)
    (h : flags n p = true) :
    procFlags data nsamples flags fth sct sclip n p = true := by
  unfold procFlags procFlags1
  rw [h]
  by_cases hs : sct > 0
  · rw [if_pos hs]
    simp
  · rw [if_neg hs]
    simp

/-- C9: for every input, `lst_average` returns arrays with no NaN from
zero-weight normalization — the returned data and standard deviation are
finite everywhere; the division by the summed sample count is applied
only where that sum is positive (elsewhere the data is the sentinel
`1`); and at every position flagged for all nights the returned data is
`1`, the returned standard deviation is `1`, the returned nsamples is
`0` and the returned flag is `True`. -/
theorem lst_average_safe {t np : ℕ} (data : Fin t → Fin np → Cx)
    (nsamples : Fin t → Fin np → ℚ) (flags : Fin t → Fin np → Bool)
    (fth sct : ℚ) (sclip : Fin t → Fin np → Bool) :
    (∀ p, ((lst_average data nsamples flags fth sct sclip).1 p).isSome = true
        ∧ ((lst_average data nsamples flags fth sct sclip).2.2.1 p).isSome
          = true)
      ∧ (∀ p, lstNorm data nsamples flags fth sct sclip p ≤ 0 →
          (lst_average data nsamples flags fth sct sclip).1 p
            = some ((1 : ℚ), (0 : ℚ)))
      ∧ (∀ p, (∀ n, flags n p = true) →
          (lst_average data nsamples flags fth sct sclip).1 p
              = some ((1 : ℚ), (0 : ℚ))
            ∧ (lst_average data nsamples flags fth sct sclip).2.1 p = true
            ∧ (lst_average data nsamples flags fth sct sclip).2.2.1 p
              = some ((1 : ℚ), (0 : ℚ))
            ∧ (lst_average data nsamples flags fth sct sclip).2.2.2 p = 0) := by
  refine ⟨?_, ?_, ?_⟩
  · intro p
    constructor
    · show ((lstData data nsamples flags fth sct sclip) p).isSome = true
      unfold lstData
      split <;> rfl
    · show ((lstStd data nsamples flags fth sct sclip) p).isSome = true
      unfold lstStd
      split
      · rfl
      · next hdec =>
          have hnall : ¬ ∀ n,
              procFlags data nsamples flags fth sct sclip n p = true := by
            intro hall
            exact hdec (decide_eq_true hall)
          push_neg at hnall
          obtain ⟨n, hn⟩ := hnall
          have hn2 : procFlags data nsamples flags fth sct sclip n p
              = false := Bool.eq_false_iff.mpr hn
          have hsome := procFlags_false_isSome data nsamples flags fth sct
            sclip n p hn2
          have hmem : n ∈ presSet (fun m =>
              lstMaskedData data nsamples flags fth sct sclip m p) := by
            rw [presSet, Finset.mem_filter]
            refine ⟨Finset.mem_univ n, ?_⟩
            show (lstMaskedData data nsamples flags fth sct sclip n p).isSome
              = true
            unfold lstMaskedData
            rw [hn2]
            simpa using hsome
          unfold nanstdC
          rw [if_neg (Finset.ne_empty_of_mem hmem)]
          rfl
  · intro p hle
    show lstData data nsamples flags fth sct sclip p = some ((1 : ℚ), (0 : ℚ))
    unfold lstData
    rw [if_neg (not_lt.mpr hle)]
  · intro p h
    have hfl : ∀ n,
        procFlags data nsamples flags fth sct sclip n p = true :=
      fun n => procFlags_of_flags data nsamples flags fth sct sclip n p (h n)
    have hnorm : lstNorm data nsamples flags fth sct sclip p = 0 := by
      unfold lstNorm
      refine Finset.sum_eq_zero ?_
      intro n _
      unfold lstSamples2
      rw [hfl n]
      rfl
    have hfmin : lstFmin data nsamples flags fth sct sclip p = true :=
      decide_eq_true hfl
    refine ⟨?_, hfmin, ?_, ?_⟩
    · show lstData data nsamples flags fth sct sclip p
        = some ((1 : ℚ), (0 : ℚ))
      unfold lstData
      rw [hnorm, if_neg (lt_irrefl (0 : ℚ))]
    · show lstStd data nsamples flags fth sct sclip p
        = some ((1 : ℚ), (0 : ℚ))
      unfold lstStd
      rw [hfmin]
      rfl
    · show lstNs data nsamples flags fth sct sclip p = 0
      unfold lstNs
      rw [hfmin]
      rfl

/-- Witness for C9 at a concrete input: a fully flagged position gets
the sentinel data `1`, flag `True`, standard deviation `1` and sample
count `0`. -/
theorem lst_average_safe_witness :
    (∀ n, wFl9 n 0 = true)
      ∧ ((lst_average wData9 wNs9 wFl9 (7 / 10) 0 wSc9).1 0
            = some ((1 : ℚ), (0 : ℚ))
          ∧ (lst_average wData9 wNs9 wFl9 (7 / 10) 0 wSc9).2.1 0 = true
          ∧ (lst_average wData9 wNs9 wFl9 (7 / 10) 0 wSc9).2.2.1 0
            = some ((1 : ℚ), (0 : ℚ))
          ∧ (lst_average wData9 wNs9 wFl9 (7 / 10) 0 wSc9).2.2.2 0 = 0) :=
  ⟨fun _ => rfl,
    (lst_average_safe wData9 wNs9 wFl9 (7 / 10) 0 wSc9).2.2 0 fun _ => rfl⟩

/-- If `simple_lst_bin` returns successfully, every validation passed:
at most 4 polarizations, matching data/flags/nsamples shapes, at least
two bin edges, and strictly increasing adjusted edges. -/
lemma simple_lst_bin_ok_valid (data : NdArr Cx) (data_lsts : List ℚ)
    (baselines : List (ℕ × ℕ)) (lst_bin_edges : List ℚ)
    (freq_array : List ℚ) (flags : Option (NdArr Bool))
    (nsamples : Option (NdArr ℚ)) (rephase : Bool)
    (antpos : Option (ℕ → Vec3))
    (rephaseFn : NdArr Cx → List ℚ → NdArr Cx) (out : SLBOut)
    (h : simple_lst_bin data data_lsts baselines lst_bin_edges freq_array
      flags nsamples rephase antpos rephaseFn = Except.ok out) :
    data.shape.2.2.2 ≤ 4
      ∧ data.shape = (data_lsts.length, baselines.length, freq_array.length,
          data.shape.2.2.2)
      ∧ (∀ fla, flags = some fla → fla.shape = data.shape)
      ∧ (∀ nsa, nsamples = some nsa → nsa.shape = data.shape)
      ∧ 2 ≤ lst_bin_edges.length
      ∧ strictlyInc (adjust_lst_bin_edges lst_bin_edges) = true := by
  simp only [simple_lst_bin] at h
  split at h
  · exact absurd h (by simp)
  · split at h
    · exact absurd h (by simp)
    · split at h
      · exact absurd h (by simp)
      · split at h
        · exact absurd h (by simp)
        · split at h
          · exact absurd h (by simp)
          · split at h
            · next h1 h2 h3 h4 h5 h6 =>
                refine ⟨by omega, by simpa using not_not.mp h2, ?_, ?_,
                  by omega, h6⟩
                · intro fla hfla
                  rw [hfla] at h3
                  simpa using not_not.mp h3
                · intro nsa hnsa
                  rw [hnsa] at h4
                  simpa using not_not.mp h4
            · exact absurd h (by simp)

/-- C10: `simple_lst_bin` validates its inputs before any binning or
rephasing and raises `ValueError` — produces an error and no output —
whenever the data has more than 4 polarizations, the data shape differs
from `(len(data_lsts), len(baselines), len(freq_array), npols)`, a
supplied flags or nsamples array does not match the data shape, fewer
than 2 LST bin edges are given, or the adjusted bin edges are not
strictly increasing. -/
theorem simple_lst_bin_validates (data : NdArr Cx) (data_lsts : List ℚ)
    (baselines : List (ℕ × ℕ)) (lst_bin_edges : List ℚ)
    (freq_array : List ℚ) (flags : Option (NdArr Bool))
    (nsamples : Option (NdArr ℚ)) (rephase : Bool)
    (antpos : Option (ℕ → Vec3))
    (rephaseFn : NdArr Cx → List ℚ → NdArr Cx) :
    (data.shape.2.2.2 > 4 → ∃ e,
        simple_lst_bin data data_lsts baselines lst_bin_edges freq_array
          flags nsamples rephase antpos rephaseFn = Except.error e)
      ∧ (data.shape ≠ (data_lsts.length, baselines.length,
            freq_array.length, data.shape.2.2.2) → ∃ e,
          simple_lst_bin data data_lsts baselines lst_bin_edges freq_array
            flags nsamples rephase antpos rephaseFn = Except.error e)
      ∧ (∀ fla, flags = some fla → fla.shape ≠ data.shape → ∃ e,
          simple_lst_bin data data_lsts baselines lst_bin_edges freq_array
            flags nsamples rephase antpos rephaseFn = Except.error e)
      ∧ (∀ nsa, nsamples = some nsa → nsa.shape ≠ data.shape → ∃ e,
          simple_lst_bin data data_lsts baselines lst_bin_edges freq_array
            flags nsamples rephase antpos rephaseFn = Except.error e)
      ∧ (lst_bin_edges.length < 2 → ∃ e,
          simple_lst_bin data data_lsts baselines lst_bin_edges freq_array
            flags nsamples rephase antpos rephaseFn = Except.error e)
      ∧ (¬ strictlyInc (adjust_lst_bin_edges lst_bin_edges) = true → ∃ e,
          simple_lst_bin data data_lsts baselines lst_bin_edges freq_array
            flags nsamples rephase antpos rephaseFn = Except.error e) := by
  have herr : ∀ P : Prop,
      (∀ out, simple_lst_bin data data_lsts baselines lst_bin_edges
          freq_array flags nsamples rephase antpos rephaseFn
          = Except.ok out → P) → ¬ P → ∃ e,
        simple_lst_bin data data_lsts baselines lst_bin_edges freq_array
          flags nsamples rephase antpos rephaseFn = Except.error e := by
    intro P hok hnp
    cases hres : simple_lst_bin data data_lsts baselines lst_bin_edges
        freq_array flags nsamples rephase antpos rephaseFn with
    | error e => exact ⟨e, rfl⟩
    | ok out => exact absurd (hok out hres) hnp
  refine ⟨?_, ?_, ?_, ?_, ?_, ?_⟩
  · intro h
    refine herr (data.shape.2.2.2 ≤ 4) ?_ (by omega)
    intro out hres
    exact (simple_lst_bin_ok_valid data data_lsts baselines lst_bin_edges
      freq_array flags nsamples rephase antpos rephaseFn out hres).1
  · intro h
    refine herr _ ?_ h
    intro out hres
    exact (simple_lst_bin_ok_valid data data_lsts baselines lst_bin_edges
      freq_array flags nsamples rephase antpos rephaseFn out hres).2.1
  · intro fla hfla h
    refine herr _ ?_ h
    intro out hres
    exact (simple_lst_bin_ok_valid data data_lsts baselines lst_bin_edges
      freq_array flags nsamples rephase antpos rephaseFn out
      hres).2.2.1 fla hfla
  · intro nsa hnsa h
    refine herr _ ?_ h
    intro out hres
    exact (simple_lst_bin_ok_valid data data_lsts baselines lst_bin_edges
      freq_array flags nsamples rephase antpos rephaseFn out
      hres).2.2.2.1 nsa hnsa
  · intro h
    refine herr (2 ≤ lst_bin_edges.length) ?_ (by omega)
    intro out hres
    exact (simple_lst_bin_ok_valid data data_lsts baselines lst_bin_edges
      freq_array flags nsamples rephase antpos rephaseFn out
      hres).2.2.2.2.1
  · intro h
    refine herr _ ?_ h
    intro out hres
    exact (simple_lst_bin_ok_valid data data_lsts baselines lst_bin_edges
      freq_array flags nsamples rephase antpos rephaseFn out
      hres).2.2.2.2.2

/-- Witness for C10 at a concrete input: a data array with five
polarizations makes `simple_lst_bin` return an error. -/
theorem simple_lst_bin_validates_witness :
    wData10.shape.2.2.2 > 4
      ∧ ∃ e, simple_lst_bin wData10 [0] [(0, 1)] [0, 1/2] [1] none none
          false none (fun d _ => d) = Except.error e :=
  ⟨by decide,
    (simple_lst_bin_validates wData10 [0] [(0, 1)] [0, 1/2] [1] none none
      false none (fun d _ => d)).1 (by decide)⟩

lemma unord_swap {n : ℕ} (a b : Fin n) : unord (b, a) = unord (a, b) := by
  unfold unord
  rcases le_total a b with hab | hba
  · rcases eq_or_lt_of_le hab with rfl | hlt
    · simp
    · rw [if_neg (by simpa using not_le.mpr hlt), if_pos (le_of_lt hlt)]
  · rcases eq_or_lt_of_le hba with rfl | hlt
    · simp
    · rw [if_pos (le_of_lt hlt), if_neg (by simpa using not_le.mpr hlt)]

lemma unord_canonPair {n : ℕ} (pos : Fin n → Vec3) (p : Fin n × Fin n) :
    unord (canonPair pos p) = unord p := by
  unfold canonPair
  split
  · exact unord_swap p.1 p.2
  · rfl

/-- The pairs collected in the groups after inserting `p` are a
permutation of `p` together with the previously collected pairs. -/
lemma insertPair_flatten_perm {n : ℕ} (tol2 : ℚ) (pos : Fin n → Vec3)
    (p : Fin n × Fin n) (gs : List (Vec3 × List (Fin n × Fin n))) :
    ((insertPair tol2 pos p gs).map Prod.snd).flatten.Perm
      (p :: (gs.map Prod.snd).flatten) := by
  induction gs with
  | nil => simp [insertPair]
  | cons g gs ih =>
      rw [insertPair]
      split
      · simp only [List.map_cons, List.flatten_cons, List.append_assoc,
          List.singleton_append]
        exact List.perm_middle
      · simp only [List.map_cons, List.flatten_cons]
        refine List.Perm.trans (List.Perm.append_left g.2 ih) ?_
        exact List.perm_middle

/-- Folding a list of pairs into the group structure collects exactly
those pairs (as a permutation). -/
lemma foldl_insertPair_perm {n : ℕ} (tol2 : ℚ) (pos : Fin n → Vec3)
    (ps : List (Fin n × Fin n)) (gs : List (Vec3 × List (Fin n × Fin n))) :
    (((ps.foldl (fun gs p => insertPair tol2 pos p gs) gs).map
      Prod.snd).flatten).Perm (ps ++ (gs.map Prod.snd).flatten) := by
  induction ps generalizing gs with
  | nil => simp
  | cons p ps ih =>
      rw [List.foldl_cons]
      refine List.Perm.trans (ih (insertPair tol2 pos p gs)) ?_
      refine List.Perm.trans
        (List.Perm.append_left ps (insertPair_flatten_perm tol2 pos p gs)) ?_
      exact List.perm_middle

lemma allPairs_lt {n : ℕ} (p : Fin n × Fin n) (hp : p ∈ allPairs n) :
    p.1 < p.2 := by
  have := List.mem_filter.mp hp
  simpa using this.2

lemma allPairs_nodup (n : ℕ) : (allPairs n).Nodup :=
  ((List.nodup_finRange n).product (List.nodup_finRange n)).filter _

lemma allPairs_map_unord (n : ℕ) :
    (allPairs n).map unord = allPairs n := by
  rw [show allPairs n = (allPairs n).map id from (List.map_id _).symm]
  rw [List.map_map]
  refine List.map_congr_left ?_
  intro p hp
  have h := allPairs_lt p (by simpa using hp)
  simp [unord, le_of_lt h]

/-- C4: the groups returned by `get_pos_reds` form a partition of the set
of all distinct antenna pairs (self-pairs excluded): read modulo
orientation, the pairs collected over all groups are a permutation of
the distinct antenna pairs (so no pair is omitted), and they contain no
duplicate (so no pair appears in two different groups, nor twice in
one). -/
theorem get_pos_reds_partition {n : ℕ} (pos : Fin n → Vec3) (tol2 : ℚ) :
    (((get_pos_reds pos tol2).flatten).map unord).Perm
        ((allPairs n).map unord)
      ∧ (((get_pos_reds pos tol2).flatten).map unord).Nodup := by
  have hperm : ((get_pos_reds pos tol2).flatten).Perm
      ((allPairs n).map (canonPair pos)) := by
    unfold get_pos_reds
    have := foldl_insertPair_perm tol2 pos ((allPairs n).map (canonPair pos)) []
    simpa using this
  have hmaps : ((allPairs n).map (canonPair pos)).map unord
      = (allPairs n).map unord := by
    rw [List.map_map]
    refine List.map_congr_left ?_
    intro p _
    exact unord_canonPair pos p
  have h1 : (((get_pos_reds pos tol2).flatten).map unord).Perm
      ((allPairs n).map unord) := by
    rw [← hmaps]
    exact hperm.map unord
  refine ⟨h1, ?_⟩
  refine h1.nodup_iff.mpr ?_
  rw [allPairs_map_unord]
  exact allPairs_nodup n

end HeraCal
